import Mathlib

/-
Verification of the Jenkins-declarative-pipeline to GitHub-Actions converter.

The Python sources (utils.py, jenkins_extractors.py, action_generator.py,
converter.py) are shallowly embedded below.  Text is modelled as `List Char`
(Python `str`).  Each Python regular expression used by the source is
hand-compiled into a deterministic scanner; every scanner is written so that
it matches the Python `re` semantics of the concrete pattern it embeds
(leftmost match, greedy character classes — for each of the patterns in the
source the greedy scan is equivalent to the backtracking semantics, which is
argued case by case in the comments).  File output (yaml serialisation,
directory creation) is out of scope per the spec; the documents that would be
written are kept as in-memory values.
-/

namespace JGHA

/-- Text is modelled as a list of characters (Python `str`). -/
abbrev Txt := List Char

/-- Turn a Lean string literal into the `Txt` model. -/
def lc (s : String) : Txt := s.data

/-- Python `str.isspace` / regex `\s`, restricted to the ASCII whitespace
characters (space, tab, newline, carriage return, vertical tab, form feed). -/
def pyIsSpace (c : Char) : Bool :=
  c = ' ' || c = '\t' || c = '\n' || c = '\r' || c = '\u000B' || c = '\u000C'

/-- Regex class `[a-zA-Z0-9]`. -/
def isAlnum (c : Char) : Bool := c.isAlphanum

/-- Regex word-character class `\w` = `[a-zA-Z0-9_]`, used for `\b`. -/
def isWordChar (c : Char) : Bool := c.isAlphanum || c = '_'

/-- Python `str.strip()` (whitespace at both ends). -/
def pyStrip (s : Txt) : Txt :=
  ((s.dropWhile pyIsSpace).reverse.dropWhile pyIsSpace).reverse

/-- Python `str.strip(chars)` for a character predicate. -/
def stripCharSet (p : Char → Bool) (s : Txt) : Txt :=
  ((s.dropWhile p).reverse.dropWhile p).reverse

/-- Python `str.lower()` (ASCII). -/
def pyLower (s : Txt) : Txt := s.map Char.toLower

/-- Python `str.upper()` (ASCII). -/
def pyUpper (s : Txt) : Txt := s.map Char.toUpper

/-- Python `sub in s` (substring containment). -/
def containsSub (s sub : Txt) : Bool :=
  match s with
  | [] => sub.isEmpty
  | _ :: rest => sub.isPrefixOf s || containsSub rest sub

/-- Index of the first occurrence of `sub` in `s` (Python `str.find` when
it succeeds). -/
def indexOfSub (s sub : Txt) : Option Nat :=
  match s with
  | [] => if sub.isEmpty then some 0 else none
  | _ :: rest =>
    if sub.isPrefixOf s then some 0 else (indexOfSub rest sub).map (· + 1)

/-- Python `str.replace(old, new)` (all non-overlapping occurrences, left to
right), fuelled so that it reduces in the kernel. -/
def pyReplaceF : Nat → Txt → Txt → Txt → Txt
  | 0, s, _, _ => s
  | _ + 1, [], _, _ => []
  | fuel + 1, c :: rest, old, new =>
    if !old.isEmpty && old.isPrefixOf (c :: rest) then
      new ++ pyReplaceF fuel (List.drop (old.length - 1) rest) old new
    else c :: pyReplaceF fuel rest old new

def pyReplace (s old new : Txt) : Txt := pyReplaceF (s.length + 1) s old new

/-- Python `str.split(sep)` for a single separator character (keeps empty
pieces). -/
def splitOnChar (sep : Char) : Txt → List Txt
  | [] => [[]]
  | c :: rest =>
    if c = sep then [] :: splitOnChar sep rest
    else
      match splitOnChar sep rest with
      | [] => [[c]]
      | h :: tl => (c :: h) :: tl

/-- Python `str.splitlines()` restricted to the line breaks that occur in the
inputs: `\r\n`, `\r`, `\n`.  A trailing line break produces no trailing empty
line, and the empty string yields no lines, as in Python. -/
def splitLinesAux : Txt → Txt → List Txt
  | [], acc => if acc.isEmpty then [] else [acc.reverse]
  | '\r' :: '\n' :: rest, acc => acc.reverse :: splitLinesAux rest []
  | '\r' :: rest, acc => acc.reverse :: splitLinesAux rest []
  | '\n' :: rest, acc => acc.reverse :: splitLinesAux rest []
  | c :: rest, acc => splitLinesAux rest (c :: acc)

def splitLines (s : Txt) : List Txt := splitLinesAux s []

/-- Python `"\n".join(xs)`. -/
def joinNl (xs : List Txt) : Txt := List.intercalate ['\n'] xs

/-! ## utils.strip_comments

`strip_comments` first removes `/\*.*?\*/` (non-greedy, DOTALL) and then
`//.*`.  Both regex substitutions are compiled into left-to-right scanners:
a block comment is removed exactly when a closing `*/` exists after the
opening `/*` (the non-greedy `.*?` picks the nearest one); a line comment
removes everything up to (excluding) the next newline. -/

def stripBlockCommentsF : Nat → Txt → Txt
  | 0, s => s
  | _ + 1, [] => []
  | fuel + 1, c :: rest =>
    if (lc "/*").isPrefixOf (c :: rest) then
      match indexOfSub (rest.drop 1) (lc "*/") with
      | some i => stripBlockCommentsF fuel ((rest.drop 1).drop (i + 2))
      | none => c :: rest
    else c :: stripBlockCommentsF fuel rest

def stripLineCommentsF : Nat → Txt → Txt
  | 0, s => s
  | _ + 1, [] => []
  | fuel + 1, c :: rest =>
    if (lc "//").isPrefixOf (c :: rest) then
      stripLineCommentsF fuel ((c :: rest).dropWhile (fun x => x ≠ '\n'))
    else c :: stripLineCommentsF fuel rest

def strip_comments (text : Txt) : Txt :=
  let t1 := stripBlockCommentsF (text.length + 1) text
  stripLineCommentsF (t1.length + 1) t1

/-! ## Generic scanner machinery

A matcher `Mt α` tries to match a pattern at the very start of the given
suffix, returning the captured value and the number of characters consumed.
`MtP` additionally receives the character just before the current position
(needed for `\b`).  `findItP` is Python `re.finditer`: scan left to right,
yield non-overlapping matches, resume right after each match. -/

abbrev Mt (α : Type) := Txt → Option (α × Nat)
abbrev MtP (α : Type) := Option Char → Txt → Option (α × Nat)

def liftM (m : Mt α) : MtP α := fun _ s => m s

def findItP (m : MtP α) : Option Char → Txt → Nat → Nat → List (Nat × α)
  | _, [], _, _ => []
  | _, c :: rest, pos, Nat.succ k => findItP m (some c) rest (pos + 1) k
  | prev, c :: rest, pos, 0 =>
    match m prev (c :: rest) with
    | none => findItP m (some c) rest (pos + 1) 0
    | some (a, k) => (pos, a) :: findItP m (some c) rest (pos + 1) (k - 1)

/-- Python `re.finditer`, keeping only the captured values. -/
def findIt (m : MtP α) (s : Txt) : List α := (findItP m none s 0 0).map Prod.snd

/-- Python `re.search`, keeping only the captured value. -/
def reSearch (m : MtP α) (s : Txt) : Option α := (findIt m s).head?

/-- Python `re.search` returning (start position, captured value, match
length); used where the source needs `m.start()` / `m.end()`. -/
def reSearchP (m : Mt α) : Txt → Option (Nat × α × Nat)
  | [] =>
    match m [] with
    | some (a, k) => some (0, a, k)
    | none => none
  | c :: rest =>
    match m (c :: rest) with
    | some (a, k) => some (0, a, k)
    | none => (reSearchP m rest).map (fun (p, a, k) => (p + 1, a, k))

/-! ### Elementary matcher pieces (each returns the remaining suffix). -/

def eatLit (litStr : Txt) (s : Txt) : Option Txt :=
  if litStr.isPrefixOf s then some (s.drop litStr.length) else none

/-- Regex `\s*`. -/
def eatWs0 (s : Txt) : Txt := s.dropWhile pyIsSpace

/-- Regex `\s+`. -/
def eatWs1 (s : Txt) : Option Txt :=
  match s with
  | c :: rest => if pyIsSpace c then some (rest.dropWhile pyIsSpace) else none
  | [] => none

def eatCh (c : Char) (s : Txt) : Option Txt :=
  match s with
  | c' :: rest => if c' = c then some rest else none
  | [] => none

def isQuote (c : Char) : Bool := c = '\x27' || c = '\x22'

def notQuote (c : Char) : Bool := !isQuote c

/-- Regex `['\"]` (either quote). -/
def eatQuote (s : Txt) : Option Txt :=
  match s with
  | c :: rest => if isQuote c then some rest else none
  | [] => none

/-- Greedy `(p)+` run: fails if empty. -/
def grabWhile1 (p : Char → Bool) (s : Txt) : Option (Txt × Txt) :=
  let g := s.takeWhile p
  if g.isEmpty then none else some (g, s.drop g.length)

/-- Greedy `(p)*` run. -/
def grabWhile0 (p : Char → Bool) (s : Txt) : Txt × Txt :=
  (s.takeWhile p, s.drop (s.takeWhile p).length)

/-! ## utils.find_block

`find_block(text, start_pat)` — all call sites pass a pattern of the form
`\bword\b`, so the search is embedded as a word-boundary search.  After the
match, whitespace is skipped; the next character must be `{`; then a
depth-tracked scan finds the matching `}`.  Returns the span of the content
strictly between the braces, or `none` for the Python `(-1, -1)` sentinel. -/

/-- First match of `\bword\b`, returning the index just after the word
(Python `m.end()`).  `prevIsWord` tracks whether the previous character is a
word character. -/
def searchWordAux (w : Txt) : Bool → Txt → Option Nat
  | _, [] => none
  | prevIsWord, c :: rest =>
    if !prevIsWord && w.isPrefixOf (c :: rest) &&
       (match (List.drop w.length (c :: rest)).head? with
        | some c' => !isWordChar c'
        | none => true) then
      some w.length
    else (searchWordAux w (isWordChar c) rest).map (· + 1)

def searchWordEnd (text w : Txt) : Option Nat := searchWordAux w false text

/-- Depth-tracked scan for the closing brace: returns the index (relative to
the start of `s`) of the first `}` at depth 0. -/
def scanBraces : Txt → Nat → Option Nat
  | [], _ => none
  | c :: rest, depth =>
    if c = '\x7b' then (scanBraces rest (depth + 1)).map (· + 1)
    else if c = '\x7d' then
      if depth = 0 then some 0 else (scanBraces rest (depth - 1)).map (· + 1)
    else (scanBraces rest depth).map (· + 1)

/-- Python slice `s[a:b]`. -/
def slice (s : Txt) (a b : Nat) : Txt := (s.drop a).take (b - a)

def find_block (text : Txt) (word : Txt) : Option (Nat × Nat) :=
  match searchWordEnd text word with
  | none => none
  | some mEnd =>
    let i := mEnd + ((text.drop mEnd).takeWhile pyIsSpace).length
    match text.drop i with
    | '\x7b' :: restB =>
      match scanBraces restB 0 with
      | some r => some (i + 1, i + 1 + r)
      | none => none
    | _ => none

/-! ## utils.sanitize_name / gha_job_id / multiline_to_commands -/

def sanitize_name (name : Txt) : Txt :=
  (pyStrip name).map (fun c => if isAlnum c || c = '_' || c = '-' then c else '_')

/-- `re.sub(r"[^a-zA-Z0-9]+", "-", s)`: every maximal run of non-alphanumeric
characters becomes a single `-`. -/
def collapseNonAlnum : Txt → Bool → Txt
  | [], _ => []
  | c :: rest, inRun =>
    if isAlnum c then c :: collapseNonAlnum rest false
    else if inRun then collapseNonAlnum rest true
    else '-' :: collapseNonAlnum rest true

def gha_job_id (name : Txt) : Txt :=
  let slug := pyLower (stripCharSet (fun c => c = '-') (collapseNonAlnum (pyStrip name) false))
  if slug.isEmpty then lc "job" else slug

def multiline_to_commands (s : Txt) : List Txt :=
  ((splitLines s).map pyStrip).filter (fun ln => !ln.isEmpty)

/-! ## Hand-compiled matchers for the concrete regexes of the source

Each `p...` function matches its pattern at the start of the suffix and
returns (captured value, remaining suffix); `toMt` turns it into a matcher
returning the consumed length.  `tryP` embeds an optional `(?:...)?` group:
it consumes the group if it matches and otherwise leaves the position
unchanged (for each of these patterns that is equivalent to the regex
backtracking semantics, because every greedy sub-part is a character class
that excludes the character required right after it). -/

def toMt (p : Txt → Option (α × Txt)) : Mt α :=
  fun s => (p s).map (fun ar => (ar.1, s.length - ar.2.length))

def tryP (p : Txt → Option (α × Txt)) (s : Txt) : Option α × Txt :=
  match p s with
  | some (a, r) => (some a, r)
  | none => (none, s)

/-- Regex `(?:\s*,)?`. -/
def eatOptComma (s : Txt) : Txt :=
  match eatCh ',' (eatWs0 s) with
  | some r => r
  | none => s

/-- `credentialsId\s*:\s*['\"]([^'\"]+)['\"]`. -/
def pCredId (s : Txt) : Option (Txt × Txt) := do
  let s ← eatLit (lc "credentialsId") s
  let s := eatWs0 s
  let s ← eatCh ':' s
  let s := eatWs0 s
  let s ← eatQuote s
  let (g, s) ← grabWhile1 notQuote s
  let s ← eatQuote s
  pure (g, s)

/-- `credentials\s*\(\s*['\"]([^'\"]+)['\"]\s*\)`. -/
def pCredCall (s : Txt) : Option (Txt × Txt) := do
  let s ← eatLit (lc "credentials") s
  let s := eatWs0 s
  let s ← eatCh '(' s
  let s := eatWs0 s
  let s ← eatQuote s
  let (g, s) ← grabWhile1 notQuote s
  let s ← eatQuote s
  let s := eatWs0 s
  let s ← eatCh ')' s
  pure (g, s)

/-- `sshagent\s*\(\s*\[([^\]]+)\]\s*\)`. -/
def pSshagent (s : Txt) : Option (Txt × Txt) := do
  let s ← eatLit (lc "sshagent") s
  let s := eatWs0 s
  let s ← eatCh '(' s
  let s := eatWs0 s
  let s ← eatCh '[' s
  let (g, s) ← grabWhile1 (fun c => c ≠ ']') s
  let s ← eatCh ']' s
  let s := eatWs0 s
  let s ← eatCh ')' s
  pure (g, s)

/-- One `re.findall` item of `['\"]?([^'\"]+)['\"]?`: an optional quote, a
non-empty run of non-quote characters, an optional quote. -/
def pLooseItem (s : Txt) : Option (Txt × Txt) :=
  let s1 := match eatQuote s with
    | some r => r
    | none => s
  match grabWhile1 notQuote s1 with
  | none => none
  | some (g, s2) =>
    let s3 := match eatQuote s2 with
      | some r => r
      | none => s2
    some (g, s3)

/-- `stage\s*\(\s*['\"]([^'\"]+)['\"]\s*\)\s*\{` (the match ends at the
opening brace). -/
def pStageHeader (s : Txt) : Option (Txt × Txt) := do
  let s ← eatLit (lc "stage") s
  let s := eatWs0 s
  let s ← eatCh '(' s
  let s := eatWs0 s
  let s ← eatQuote s
  let (g, s) ← grabWhile1 notQuote s
  let s ← eatQuote s
  let s := eatWs0 s
  let s ← eatCh ')' s
  let s := eatWs0 s
  let s ← eatCh '\x7b' s
  pure (g, s)

/-- `sh\s+([\"']{3})([\s\S]*?)\1`: three quote characters (any mix), then the
shortest run up to the same three-character sequence again. -/
def pShTriple (s : Txt) : Option (Txt × Txt) := do
  let s ← eatLit (lc "sh") s
  let s ← eatWs1 s
  match s with
  | q1 :: q2 :: q3 :: rest =>
    if isQuote q1 && isQuote q2 && isQuote q3 then
      match indexOfSub rest [q1, q2, q3] with
      | some i => some (rest.take i, rest.drop (i + 3))
      | none => none
    else none
  | _ => none

/-- `sh\s+['\"]([^'\"]+)['\"]`. -/
def pShSingle (s : Txt) : Option (Txt × Txt) := do
  let s ← eatLit (lc "sh") s
  let s ← eatWs1 s
  let s ← eatQuote s
  let (g, s) ← grabWhile1 notQuote s
  let s ← eatQuote s
  pure (g, s)

/-- `echo\s+['\"]([^'\"]+)['\"]` (the `\becho` boundary is checked by
`mEcho`). -/
def pEcho (s : Txt) : Option (Txt × Txt) := do
  let s ← eatLit (lc "echo") s
  let s ← eatWs1 s
  let s ← eatQuote s
  let (g, s) ← grabWhile1 notQuote s
  let s ← eatQuote s
  pure (g, s)

/-- `\becho\s+['\"]([^'\"]+)['\"]`. -/
def mEcho : MtP Txt := fun prev s =>
  match prev with
  | some c => if isWordChar c then none else toMt pEcho s
  | none => toMt pEcho s

/-- `key\s+['\"]([^'\"]+)['\"]` (used for label/image/args/maven/jdk/nodejs/
git/branch). -/
def pKeyQuoted (key : Txt) (s : Txt) : Option (Txt × Txt) := do
  let s ← eatLit key s
  let s ← eatWs1 s
  let s ← eatQuote s
  let (g, s) ← grabWhile1 notQuote s
  let s ← eatQuote s
  pure (g, s)

def mKeyQuoted (key : Txt) : MtP Txt := liftM (toMt (pKeyQuoted key))

/-- `(true|false)`. -/
def pTrueFalse (s : Txt) : Option (Bool × Txt) :=
  match eatLit (lc "true") s with
  | some r => some (true, r)
  | none =>
    match eatLit (lc "false") s with
    | some r => some (false, r)
    | none => none

/-- `reuseNode\s+(true|false)`; the source compares the captured text with
`"true"`. -/
def pReuseNode (s : Txt) : Option (Bool × Txt) := do
  let s ← eatLit (lc "reuseNode") s
  let s ← eatWs1 s
  pTrueFalse s

/-- `branch\s*:\s*['\"]([^'\"]*)['\"](?:\s*,)?` of the git pattern. -/
def pGitBranch (s : Txt) : Option (Txt × Txt) := do
  let s ← eatLit (lc "branch") s
  let s := eatWs0 s
  let s ← eatCh ':' s
  let s := eatWs0 s
  let s ← eatQuote s
  let (g, s) := grabWhile0 notQuote s
  let s ← eatQuote s
  pure (g, eatOptComma s)

/-- `url\s*:\s*['\"]([^'\"]+)['\"](?:\s*,)?` of the git pattern. -/
def pGitUrl (s : Txt) : Option (Txt × Txt) := do
  let s ← eatLit (lc "url") s
  let s := eatWs0 s
  let s ← eatCh ':' s
  let s := eatWs0 s
  let s ← eatQuote s
  let (g, s) ← grabWhile1 notQuote s
  let s ← eatQuote s
  pure (g, eatOptComma s)

/-- `credentialsId\s*:\s*['\"]([^'\"]*)['\"]` of the git pattern. -/
def pGitCred (s : Txt) : Option (Txt × Txt) := do
  let s ← eatLit (lc "credentialsId") s
  let s := eatWs0 s
  let s ← eatCh ':' s
  let s := eatWs0 s
  let s ← eatQuote s
  let (g, s) := grabWhile0 notQuote s
  let s ← eatQuote s
  pure (g, s)

/-- `git\s+(?:branch...)?\s*(?:url...)?\s*(?:credentialsId...)?`: only
`git\s+` is mandatory; each keyword group is optional. -/
def pGit (s : Txt) : Option ((Option Txt × Option Txt × Option Txt) × Txt) := do
  let s ← eatLit (lc "git") s
  let s ← eatWs1 s
  let (br, s) := tryP pGitBranch s
  let s := eatWs0 s
  let (url, s) := tryP pGitUrl s
  let s := eatWs0 s
  let (cred, s) := tryP pGitCred s
  pure ((br, url, cred), s)

/-- `-t\s+` (optional part of docker build). -/
def pDashT (s : Txt) : Option Txt := do
  let s ← eatLit (lc "-t") s
  eatWs1 s

/-- `\s+(.+)` (optional context of docker build; `.` excludes newline). -/
def pBuildCtx (s : Txt) : Option (Txt × Txt) := do
  let s ← eatWs1 s
  let (g, s) ← grabWhile1 (fun c => c ≠ '\n') s
  pure (g, s)

/-- `docker\s+build\s+(?:-t\s+)?([^\s]+)(?:\s+(.+))?`. -/
def pDockerBuild (s : Txt) : Option ((Txt × Option Txt) × Txt) := do
  let s ← eatLit (lc "docker") s
  let s ← eatWs1 s
  let s ← eatLit (lc "build") s
  let s ← eatWs1 s
  let s := match pDashT s with
    | some r => r
    | none => s
  let (tag, s) ← grabWhile1 (fun c => !pyIsSpace c) s
  let (ctx, s) := tryP pBuildCtx s
  pure ((tag, ctx), s)

/-- `docker\s+push\s+([^\s]+)`. -/
def pDockerPush (s : Txt) : Option (Txt × Txt) := do
  let s ← eatLit (lc "docker") s
  let s ← eatWs1 s
  let s ← eatLit (lc "push") s
  let s ← eatWs1 s
  let (tag, s) ← grabWhile1 (fun c => !pyIsSpace c) s
  pure (tag, s)

/-- `kubectl\s+([^\n\"']+)`. -/
def pKubectl (s : Txt) : Option (Txt × Txt) := do
  let s ← eatLit (lc "kubectl") s
  let s ← eatWs1 s
  let (g, s) ← grabWhile1 (fun c => c ≠ '\n' && c ≠ '\x22' && c ≠ '\x27') s
  pure (g, s)

/-- `credentialsId\s*:\s*['\"]([^'\"]*)['\"]` of the SonarQube pattern. -/
def pSonarCred (s : Txt) : Option (Txt × Txt) := do
  let s ← eatLit (lc "credentialsId") s
  let s := eatWs0 s
  let s ← eatCh ':' s
  let s := eatWs0 s
  let s ← eatQuote s
  let (g, s) := grabWhile0 notQuote s
  let s ← eatQuote s
  pure (g, s)

/-- `installationName\s*:\s*['\"]([^'\"]*)['\"]` of the SonarQube pattern. -/
def pSonarInst (s : Txt) : Option (Txt × Txt) := do
  let s ← eatLit (lc "installationName") s
  let s := eatWs0 s
  let s ← eatCh ':' s
  let s := eatWs0 s
  let s ← eatQuote s
  let (g, s) := grabWhile0 notQuote s
  let s ← eatQuote s
  pure (g, s)

/-- `withSonarQubeEnv\s*\(\s*(?:credentialsId...)?(?:\s*,)?\s*
(?:installationName...)?\s*\)\s*\{([^}]*)\}`. -/
def pSonarEnv (s : Txt) : Option ((Txt × Txt × Txt) × Txt) := do
  let s ← eatLit (lc "withSonarQubeEnv") s
  let s := eatWs0 s
  let s ← eatCh '(' s
  let s := eatWs0 s
  let (cred, s) := tryP pSonarCred s
  let s := eatOptComma s
  let s := eatWs0 s
  let (inst, s) := tryP pSonarInst s
  let s := eatWs0 s
  let s ← eatCh ')' s
  let s := eatWs0 s
  let s ← eatCh '\x7b' s
  let (inner, s) := grabWhile0 (fun c => c ≠ '\x7d') s
  let s ← eatCh '\x7d' s
  pure ((cred.getD [], inst.getD [], inner), s)

/-- `(?:\s*,\s*parameters\s*:\s*\[([^\]]*)\])?` of the input pattern. -/
def pInputParams (s : Txt) : Option (Txt × Txt) := do
  let s := eatWs0 s
  let s ← eatCh ',' s
  let s := eatWs0 s
  let s ← eatLit (lc "parameters") s
  let s := eatWs0 s
  let s ← eatCh ':' s
  let s := eatWs0 s
  let s ← eatCh '[' s
  let (g, s) := grabWhile0 (fun c => c ≠ ']') s
  let s ← eatCh ']' s
  pure (g, s)

/-- `input\s*\(\s*message\s*:\s*['\"]([^'\"]+)['\"](?:...parameters...)?\s*\)`. -/
def pInputStep (s : Txt) : Option ((Txt × Txt) × Txt) := do
  let s ← eatLit (lc "input") s
  let s := eatWs0 s
  let s ← eatCh '(' s
  let s := eatWs0 s
  let s ← eatLit (lc "message") s
  let s := eatWs0 s
  let s ← eatCh ':' s
  let s := eatWs0 s
  let s ← eatQuote s
  let (msg, s) ← grabWhile1 notQuote s
  let s ← eatQuote s
  let (ps, s) := tryP pInputParams s
  let s := eatWs0 s
  let s ← eatCh ')' s
  pure ((msg, ps.getD []), s)

/-- `,\s*defaultValue\s*:\s*['\"]([^'\"]*)['\"]` (string parameter). -/
def pParamDefaultStr (s : Txt) : Option (Txt × Txt) := do
  let s ← eatCh ',' s
  let s := eatWs0 s
  let s ← eatLit (lc "defaultValue") s
  let s := eatWs0 s
  let s ← eatCh ':' s
  let s := eatWs0 s
  let s ← eatQuote s
  let (g, s) := grabWhile0 notQuote s
  let s ← eatQuote s
  pure (g, s)

/-- `,\s*defaultValue\s*:\s*(true|false)` (boolean parameter). -/
def pParamDefaultBool (s : Txt) : Option (Bool × Txt) := do
  let s ← eatCh ',' s
  let s := eatWs0 s
  let s ← eatLit (lc "defaultValue") s
  let s := eatWs0 s
  let s ← eatCh ':' s
  let s := eatWs0 s
  pTrueFalse s

/-- `,\s*description\s*:\s*['\"]([^'\"]*)['\"]`. -/
def pParamDesc (s : Txt) : Option (Txt × Txt) := do
  let s ← eatCh ',' s
  let s := eatWs0 s
  let s ← eatLit (lc "description") s
  let s := eatWs0 s
  let s ← eatCh ':' s
  let s := eatWs0 s
  let s ← eatQuote s
  let (g, s) := grabWhile0 notQuote s
  let s ← eatQuote s
  pure (g, s)

/-- `,\s*choices\s*:\s*\[([^\]]+)\]` (choice parameter). -/
def pParamChoices (s : Txt) : Option (Txt × Txt) := do
  let s ← eatCh ',' s
  let s := eatWs0 s
  let s ← eatLit (lc "choices") s
  let s := eatWs0 s
  let s ← eatCh ':' s
  let s := eatWs0 s
  let s ← eatCh '[' s
  let (g, s) ← grabWhile1 (fun c => c ≠ ']') s
  let s ← eatCh ']' s
  pure (g, s)

/-- `string\s*\(\s*name\s*:\s*['\"]([^'\"]+)['\"](?:defaultValue)?(?:description)?`. -/
def pStringParam (s : Txt) : Option ((Txt × Txt × Txt) × Txt) := do
  let s ← eatLit (lc "string") s
  let s := eatWs0 s
  let s ← eatCh '(' s
  let s := eatWs0 s
  let s ← eatLit (lc "name") s
  let s := eatWs0 s
  let s ← eatCh ':' s
  let s := eatWs0 s
  let s ← eatQuote s
  let (name, s) ← grabWhile1 notQuote s
  let s ← eatQuote s
  let (dflt, s) := tryP pParamDefaultStr s
  let (desc, s) := tryP pParamDesc s
  pure ((name, dflt.getD [], desc.getD []), s)

/-- `booleanParam\s*\(\s*name\s*:\s*['\"]([^'\"]+)['\"](?:defaultValue)?(?:description)?`. -/
def pBoolParam (s : Txt) : Option ((Txt × Option Bool × Txt) × Txt) := do
  let s ← eatLit (lc "booleanParam") s
  let s := eatWs0 s
  let s ← eatCh '(' s
  let s := eatWs0 s
  let s ← eatLit (lc "name") s
  let s := eatWs0 s
  let s ← eatCh ':' s
  let s := eatWs0 s
  let s ← eatQuote s
  let (name, s) ← grabWhile1 notQuote s
  let s ← eatQuote s
  let (dflt, s) := tryP pParamDefaultBool s
  let (desc, s) := tryP pParamDesc s
  pure ((name, dflt, desc.getD []), s)

/-- `choice\s*\(\s*name\s*:\s*['\"]([^'\"]+)['\"](?:choices)?(?:description)?`. -/
def pChoiceParam (s : Txt) : Option ((Txt × Txt × Txt) × Txt) := do
  let s ← eatLit (lc "choice") s
  let s := eatWs0 s
  let s ← eatCh '(' s
  let s := eatWs0 s
  let s ← eatLit (lc "name") s
  let s := eatWs0 s
  let s ← eatCh ':' s
  let s := eatWs0 s
  let s ← eatQuote s
  let (name, s) ← grabWhile1 notQuote s
  let s ← eatQuote s
  let (choices, s) := tryP pParamChoices s
  let (desc, s) := tryP pParamDesc s
  pure ((name, choices.getD [], desc.getD []), s)

/-- `archiveArtifacts\s*\(\s*artifacts\s*:\s*['\"]([^'\"]+)['\"]`. -/
def pArchive (s : Txt) : Option (Txt × Txt) := do
  let s ← eatLit (lc "archiveArtifacts") s
  let s := eatWs0 s
  let s ← eatCh '(' s
  let s := eatWs0 s
  let s ← eatLit (lc "artifacts") s
  let s := eatWs0 s
  let s ← eatCh ':' s
  let s := eatWs0 s
  let s ← eatQuote s
  let (g, s) ← grabWhile1 notQuote s
  let s ← eatQuote s
  pure (g, s)

/-- `mail\s+to\s*:\s*['\"]([^'\"]+)['\"]`. -/
def pMail (s : Txt) : Option (Txt × Txt) := do
  let s ← eatLit (lc "mail") s
  let s ← eatWs1 s
  let s ← eatLit (lc "to") s
  let s := eatWs0 s
  let s ← eatCh ':' s
  let s := eatWs0 s
  let s ← eatQuote s
  let (g, s) ← grabWhile1 notQuote s
  let s ← eatQuote s
  pure (g, s)

/-- `\$\{params\.([^}]+)\}` (parameter interpolation inside a branch value). -/
def pParamsRef (s : Txt) : Option (Txt × Txt) := do
  let s ← eatCh '$' s
  let s ← eatCh '\x7b' s
  let s ← eatLit (lc "params.") s
  let (g, s) ← grabWhile1 (fun c => c ≠ '\x7d') s
  let s ← eatCh '\x7d' s
  pure (g, s)

/-- `-Dsonar\.projectKey=([^\s]+)`. -/
def pProjKey (s : Txt) : Option (Txt × Txt) := do
  let s ← eatLit (lc "-Dsonar.projectKey=") s
  let (g, s) ← grabWhile1 (fun c => !pyIsSpace c) s
  pure (g, s)

/-- `-Dsonar\.projectName=([^\s'\"]+)`. -/
def pProjName (s : Txt) : Option (Txt × Txt) := do
  let s ← eatLit (lc "-Dsonar.projectName=") s
  let (g, s) ← grabWhile1 (fun c => !pyIsSpace c && notQuote c) s
  pure (g, s)

/-! ## Association lists (Python `dict` with insertion order)

Assigning to an existing key keeps its position and replaces the value;
a new key is appended. -/

def dictUpd (m : List (Txt × α)) (k : Txt) (v : α) : List (Txt × α) :=
  if m.any (fun p => p.1 = k) then m.map (fun p => if p.1 = k then (k, v) else p)
  else m ++ [(k, v)]

def aLookup (k : Txt) : List (Txt × α) → Option α
  | [] => none
  | (k', v) :: rest => if k' = k then some v else aLookup k rest

/-- Python `set.add` modelled as first-insertion-ordered list insertion
(`set` iteration order is unspecified in Python; every claim that touches
credential sets is order-insensitive or is evaluated on this deterministic
stand-in). -/
def setAdd (s : List Txt) (x : Txt) : List Txt := if s.contains x then s else s ++ [x]

/-! ## jenkins_extractors.py -/

structure ToolsRec where
  maven : Option Txt := none
  jdk : Option Txt := none
  nodejs : Option Txt := none
  gitTool : Option Txt := none
deriving DecidableEq

def extract_tools (stage_body : Txt) : ToolsRec :=
  match find_block stage_body (lc "tools") with
  | none => {}
  | some (s, e) =>
    let tb := slice stage_body s e
    { maven := reSearch (mKeyQuoted (lc "maven")) tb,
      jdk := reSearch (mKeyQuoted (lc "jdk")) tb,
      nodejs := reSearch (mKeyQuoted (lc "nodejs")) tb,
      gitTool := reSearch (mKeyQuoted (lc "git")) tb }

structure GitStep where
  branch : Txt
  url : Txt
  credentialsId : Txt
deriving DecidableEq

def extract_git_steps (stage_body : Txt) : List GitStep :=
  (findIt (liftM (toMt pGit)) stage_body).filterMap (fun g =>
    match g.2.1 with
    | some u => some ⟨g.1.getD [], u, (g.2.2).getD []⟩
    | none => none)

structure SonarStep where
  credentialsId : Txt
  installationName : Txt
  commands : List Txt
deriving DecidableEq

def extract_sonarqube_steps (stage_body : Txt) : List SonarStep :=
  (findIt (liftM (toMt pSonarEnv)) stage_body).filterMap (fun g =>
    let commands := findIt (liftM (toMt pShSingle)) g.2.2
    if commands.isEmpty then none else some ⟨g.1, g.2.1, commands⟩)

structure InputStep where
  message : Txt
  parametersRaw : Txt
deriving DecidableEq

def extract_input_steps (stage_body : Txt) : List InputStep :=
  (findIt (liftM (toMt pInputStep)) stage_body).map (fun g => ⟨g.1, g.2⟩)

def extract_credentials_usage (stage_body : Txt) : List Txt :=
  let s1 := (findIt (liftM (toMt pCredId)) stage_body).foldl setAdd []
  let s2 := (findIt (liftM (toMt pCredCall)) stage_body).foldl setAdd s1
  (findIt (liftM (toMt pSshagent)) stage_body).foldl
    (fun acc credList =>
      (findIt (liftM (toMt pLooseItem)) credList).foldl
        (fun a cred => if (pyStrip cred).isEmpty then a else setAdd a (pyStrip cred)) acc)
    s2

inductive DockerStep where
  | build (tag : Txt) (context : Txt)
  | push (tag : Txt)
deriving DecidableEq

def extract_docker_steps (stage_body : Txt) : List DockerStep :=
  (findIt (liftM (toMt pDockerBuild)) stage_body).map
    (fun g => DockerStep.build (pyStrip g.1)
      (match g.2 with
       | some c => pyStrip c
       | none => lc "."))
  ++ (findIt (liftM (toMt pDockerPush)) stage_body).map
    (fun tag => DockerStep.push (pyStrip tag))

def extract_kubectl_steps (stage_body : Txt) : List Txt :=
  (findIt (liftM (toMt pKubectl)) stage_body).map (fun g => lc "kubectl " ++ pyStrip g)

inductive PVal where
  | s (v : Txt)
  | b (v : Bool)
deriving DecidableEq

structure ParamInfo where
  ptype : Txt
  dflt : PVal
  description : Txt
  options : List Txt := []
deriving DecidableEq

/-- `[c.strip().strip('\x27\x22') for c in choices_str.split(',') if c.strip()]`. -/
def parseChoices (g : Txt) : List Txt :=
  ((splitOnChar ',' g).filter (fun c => !(pyStrip c).isEmpty)).map
    (fun c => stripCharSet isQuote (pyStrip c))

def stringParamDecls (pb : Txt) : List (Txt × ParamInfo) :=
  (findIt (liftM (toMt pStringParam)) pb).map
    (fun g => (g.1, ⟨lc "string", PVal.s g.2.1, g.2.2, []⟩))

def boolParamDecls (pb : Txt) : List (Txt × ParamInfo) :=
  (findIt (liftM (toMt pBoolParam)) pb).map
    (fun g => (g.1, ⟨lc "boolean", PVal.b (g.2.1.getD false), g.2.2, []⟩))

def choiceParamDecls (pb : Txt) : List (Txt × ParamInfo) :=
  (findIt (liftM (toMt pChoiceParam)) pb).map
    (fun g =>
      let choices := parseChoices g.2.1
      (g.1, ⟨lc "choice", PVal.s (choices.headD []), g.2.2, choices⟩))

/-- The three parameter scans run in this order (string, boolean, choice);
each assignment `params[name] = ...` is a dict update. -/
def extract_parameters (pipeline_body : Txt) : List (Txt × ParamInfo) :=
  match find_block pipeline_body (lc "parameters") with
  | none => []
  | some (ps, pe) =>
    let pb := slice pipeline_body ps pe
    let m1 := (stringParamDecls pb).foldl (fun a p => dictUpd a p.1 p.2) []
    let m2 := (boolParamDecls pb).foldl (fun a p => dictUpd a p.1 p.2) m1
    (choiceParamDecls pb).foldl (fun a p => dictUpd a p.1 p.2) m2

inductive Agent where
  | noAgent
  | any
  | label (l : Txt)
  | docker (image : Txt) (args : Option Txt) (reuseNode : Option Bool)
deriving DecidableEq

/-- Shared body of `extract_global_agent` and `extract_stage_agent` (the two
Python functions are line-for-line identical). -/
def extractAgentCore (body0 : Txt) : Agent :=
  match find_block body0 (lc "agent") with
  | none => Agent.noAgent
  | some (s, e) =>
    let body := slice body0 s e
    if (searchWordEnd body (lc "any")).isSome then Agent.any
    else
      let nodeLabel :=
        match find_block body (lc "node") with
        | some (ns, ne) => reSearch (mKeyQuoted (lc "label")) (slice body ns ne)
        | none => none
      match nodeLabel with
      | some l => Agent.label (pyStrip l)
      | none =>
        match reSearch (mKeyQuoted (lc "label")) body with
        | some l => Agent.label (pyStrip l)
        | none =>
          match find_block body (lc "docker") with
          | some (ds, de) =>
            let dbody := slice body ds de
            match reSearch (mKeyQuoted (lc "image")) dbody with
            | some img =>
              Agent.docker (pyStrip img)
                ((reSearch (mKeyQuoted (lc "args")) dbody).map pyStrip)
                (reSearch (liftM (toMt pReuseNode)) dbody)
            | none => Agent.noAgent
          | none => Agent.noAgent

def extract_global_agent (pipeline_body : Txt) : Agent := extractAgentCore pipeline_body

def extract_stage_agent (stage_body : Txt) : Agent := extractAgentCore stage_body

/-- `re.match(r"([A-Za-z_][A-Za-z0-9_]*)\s*=\s*(.+)", line)`: the trailing
`(.+)` needs at least one character, so when everything after `=` is
whitespace the greedy `\s*` backtracks by one. -/
def pEnvLine (line : Txt) : Option (Txt × Txt) :=
  match line with
  | c :: rest =>
    if c.isAlpha || c = '_' then
      let (nmRest, s1) := grabWhile0 isWordChar rest
      let s2 := eatWs0 s1
      match eatCh '=' s2 with
      | some s3 =>
        if s3.isEmpty then none
        else
          let s4 := eatWs0 s3
          let g2 := if s4.isEmpty then s3.drop (s3.length - 1) else s4
          some (c :: nmRest, g2)
      | none => none
    else none
  | [] => none

/-- `val[1:-1]` when the stripped value is wrapped in matching quotes. -/
def unquoteVal (v : Txt) : Txt :=
  if (v.head? = some '\x27' && v.getLast? = some '\x27') ||
     (v.head? = some '\x22' && v.getLast? = some '\x22') then
    (v.drop 1).take (v.length - 2)
  else v

def extract_env_kv (env_body : Txt) : List (Txt × Txt) :=
  (splitLines env_body).foldl
    (fun env line0 =>
      let line := pyStrip line0
      if line.isEmpty || line.head? = some '#' then env
      else
        match pEnvLine line with
        | some (k, v) => dictUpd env k (unquoteVal (pyStrip v))
        | none => env)
    []

structure StageRec where
  name : Txt
  content : Txt
deriving DecidableEq

def mStageHeader : Mt Txt := toMt pStageHeader

/-- The `split_stages` loop, annotated with the absolute position of each
stage header (the source's `abs_start`).  On a brace-balance failure the
trailing stage is dropped and the pairs collected so far are returned
(the Python `while ... else: break`). -/
def splitStagesA : Nat → Txt → Nat → List (Nat × StageRec)
  | 0, _, _ => []
  | fuel + 1, cs, pos =>
    match reSearchP mStageHeader cs with
    | none => []
    | some (rel, name, mlen) =>
      let afterHdr := cs.drop (rel + mlen)
      match scanBraces afterHdr 0 with
      | none => []
      | some r =>
        (pos + rel, ⟨name, afterHdr.take r⟩) ::
          splitStagesA fuel (afterHdr.drop (r + 1)) (pos + rel + mlen + r + 1)

def split_stages (stages_body : Txt) : List StageRec :=
  (splitStagesA (stages_body.length + 1) stages_body 0).map Prod.snd

def extract_stage_when_branch (stage_body : Txt) : Txt :=
  match find_block stage_body (lc "when") with
  | none => []
  | some (s, e) => (reSearch (mKeyQuoted (lc "branch")) (slice stage_body s e)).getD []

def extract_stage_environment (stage_body : Txt) : List (Txt × Txt) :=
  match find_block stage_body (lc "environment") with
  | none => []
  | some (s, e) => extract_env_kv (slice stage_body s e)

/-- `extract_steps_commands`: three independent scans over the (comment-
stripped) steps zone — triple-quoted scripts first, then single-line `sh`,
then `echo`. -/
def extract_steps_commands (stage_body : Txt) : List Txt :=
  let search_zone :=
    match find_block stage_body (lc "steps") with
    | some (s, e) => slice stage_body s e
    | none => stage_body
  let zone := strip_comments search_zone
  (findIt (liftM (toMt pShTriple)) zone).flatMap multiline_to_commands
    ++ (findIt (liftM (toMt pShSingle)) zone).map pyStrip
    ++ (findIt mEcho zone).map (fun g => lc "echo " ++ pyStrip g)

structure PostData where
  archive : Option Txt := none
  commands : List Txt := []
  mailTo : Option Txt := none
deriving DecidableEq

def PostData.isEmptyData (d : PostData) : Bool :=
  d.archive.isNone && d.commands.isEmpty && d.mailTo.isNone

/-- `_collect(kind)` of `_extract_post_body` (here the single-line `sh` scan
comes first, then triple-quoted, then `echo`). -/
def collectPostKind (post_body : Txt) (kind : Txt) : PostData :=
  match find_block post_body kind with
  | none => {}
  | some (ks, ke) =>
    let kbody := slice post_body ks ke
    { archive := (reSearch (liftM (toMt pArchive)) kbody).map pyStrip,
      commands :=
        (findIt (liftM (toMt pShSingle)) kbody).map pyStrip
          ++ (findIt (liftM (toMt pShTriple)) kbody).flatMap multiline_to_commands
          ++ (findIt mEcho kbody).map (fun g => lc "echo " ++ pyStrip g),
      mailTo := (reSearch (liftM (toMt pMail)) kbody).map pyStrip }

def extractPostBody (body : Txt) : List (Txt × PostData) :=
  match find_block body (lc "post") with
  | none => []
  | some (ps, pe) =>
    let post_body := slice body ps pe
    [lc "always", lc "success", lc "failure", lc "cleanup"].filterMap
      (fun kind =>
        let d := collectPostKind post_body kind
        if d.isEmptyData then none else some (kind, d))

def extract_stage_post (stage_body : Txt) : List (Txt × PostData) :=
  extractPostBody stage_body

def extract_pipeline_post (pipeline_body : Txt) : List (Txt × PostData) :=
  extractPostBody pipeline_body

def extract_parallel (stage_body : Txt) : List StageRec :=
  match find_block stage_body (lc "parallel") with
  | none => []
  | some (ps, pe) => split_stages (slice stage_body ps pe)

/-! ## action_generator.py

Steps are dictionaries with a fixed vocabulary of keys; they are modelled as
a structure with optional fields (`none` / `[]` = key absent). -/

structure Step where
  name : Option Txt := none
  uses : Option Txt := none
  run : Option Txt := none
  shell : Option Txt := none
  ifCond : Option Txt := none
  withArgs : List (Txt × Txt) := []
  env : List (Txt × Txt) := []
deriving DecidableEq

def generate_tool_setup_steps (tools : ToolsRec) : List Step :=
  let javaSteps :=
    if tools.jdk.isSome || tools.maven.isSome then
      let java_version :=
        match tools.jdk with
        | some jdkName =>
          let j := pyLower jdkName
          if containsSub j (lc "11") then lc "11"
          else if containsSub j (lc "17") then lc "17"
          else if containsSub j (lc "21") then lc "21"
          else lc "8"
        | none => lc "8"
      [{ name := some (lc "Set up JDK"), uses := some (lc "actions/setup-java@v4"),
         withArgs := [(lc "java-version", java_version), (lc "distribution", lc "temurin")] }]
    else []
  let mavenSteps : List Step :=
    if tools.maven.isSome then
      [{ name := some (lc "Cache Maven packages"), uses := some (lc "actions/cache@v3"),
         withArgs := [(lc "path", lc "~/.m2"),
                      (lc "key",
                       lc "$\x7b\x7b runner.os \x7d\x7d-m2-$\x7b\x7b hashFiles(\x27**/pom.xml\x27) \x7d\x7d")] }]
    else []
  let nodeSteps : List Step :=
    if tools.nodejs.isSome then
      let node_version :=
        match tools.nodejs with
        | some nn =>
          let n := pyLower nn
          if containsSub n (lc "16") then lc "16"
          else if containsSub n (lc "20") then lc "20"
          else lc "18"
        | none => lc "18"
      [{ name := some (lc "Set up Node.js"), uses := some (lc "actions/setup-node@v4"),
         withArgs := [(lc "node-version", node_version), (lc "cache", lc "npm")] }]
    else []
  javaSteps ++ mavenSteps ++ nodeSteps

/-- `cred_id = git_step["credentialsId"].upper().replace("-", "_")` (and the
same normalisation for SSH credentials). -/
def normSecretName (credId : Txt) : Txt := pyReplace (pyUpper credId) (lc "-") (lc "_")

/-- The `if git_step["url"]: ...` block (sets the `repository` input). -/
def gitRepoPart (g : GitStep) : List (Txt × Txt) :=
  if g.url.isEmpty then []
  else if (lc "https://github.com/").isPrefixOf g.url then
    [(lc "repository", pyReplace (pyReplace g.url (lc "https://github.com/") []) (lc ".git") [])]
  else if containsSub g.url (lc "/") && !(lc "http").isPrefixOf g.url then
    [(lc "repository", g.url)]
  else []

/-- The `if git_step["branch"]: ...` block (sets the `ref` input). -/
def gitRefPart (g : GitStep) : List (Txt × Txt) :=
  if g.branch.isEmpty then []
  else if containsSub g.branch (lc "$\x7bparams.") then
    match reSearch (liftM (toMt pParamsRef)) g.branch with
    | some pn => [(lc "ref", lc "$\x7b\x7b inputs." ++ pn ++ lc " \x7d\x7d")]
    | none => []
  else [(lc "ref", g.branch)]

/-- The `if git_step["credentialsId"]: ...` block (sets the `token` input). -/
def gitCredPart (g : GitStep) : List (Txt × Txt) :=
  if g.credentialsId.isEmpty then []
  else [(lc "token", lc "$\x7b\x7b secrets." ++ normSecretName g.credentialsId ++ lc " \x7d\x7d")]

def gitStepWith (g : GitStep) : List (Txt × Txt) :=
  gitRepoPart g ++ gitRefPart g ++ gitCredPart g

def convertGitStep (g : GitStep) : Step :=
  { name := some (lc "Checkout code"), uses := some (lc "actions/checkout@v4"),
    withArgs := gitStepWith g }

def convert_git_steps_to_actions (gs : List GitStep) : List Step :=
  gs.map convertGitStep

def sonarEnvPairs : List (Txt × Txt) :=
  [(lc "SONAR_TOKEN", lc "$\x7b\x7b secrets.SONAR_TOKEN \x7d\x7d"),
   (lc "SONAR_HOST_URL", lc "$\x7b\x7b secrets.SONAR_HOST_URL \x7d\x7d")]

def sonarWithParams (cmds : List Txt) : List (Txt × Txt) :=
  cmds.foldl
    (fun wp cmd =>
      let wp :=
        if containsSub cmd (lc "-Dsonar.projectKey=") then
          match reSearch (liftM (toMt pProjKey)) cmd with
          | some k => dictUpd wp (lc "projectKey") k
          | none => wp
        else wp
      if containsSub cmd (lc "-Dsonar.projectName=") then
        match reSearch (liftM (toMt pProjName)) cmd with
        | some n => dictUpd wp (lc "projectName") (stripCharSet isQuote n)
        | none => wp
      else wp)
    []

def convert_sonarqube_steps (ss : List SonarStep) : List Step :=
  ss.flatMap (fun st =>
    ({ name := some (lc "SonarQube Scan"), uses := some (lc "sonarqube-scan-action@master"),
       env := sonarEnvPairs, withArgs := sonarWithParams st.commands } : Step)
      :: st.commands.map (fun cmd =>
        { name := some (lc "Run SonarQube analysis"), run := some cmd,
          shell := some (lc "bash"), env := sonarEnvPairs }))

def dockerLoginStep : Step :=
  { name := some (lc "Login to DockerHub"), uses := some (lc "docker/login-action@v2"),
    withArgs := [(lc "username", lc "$\x7b\x7b secrets.DOCKER_USERNAME \x7d\x7d"),
                 (lc "password", lc "$\x7b\x7b secrets.DOCKER_PASSWORD \x7d\x7d")] }

def hasLogin (acc : List Step) : Bool :=
  acc.any (fun a => containsSub (a.uses.getD []) (lc "docker/login-action"))

def convert_docker_steps (ds : List DockerStep) : List Step :=
  ds.foldl
    (fun acc d =>
      match d with
      | DockerStep.build tag ctx =>
        acc ++ [{ name := some (lc "Build Docker image"),
                  run := some (lc "docker build -t " ++ tag ++ lc " " ++ ctx),
                  shell := some (lc "bash") }]
      | DockerStep.push tag =>
        let acc := if hasLogin acc then acc else acc ++ [dockerLoginStep]
        acc ++ [{ name := some (lc "Push Docker image"),
                  run := some (lc "docker push " ++ tag),
                  shell := some (lc "bash") }])
    []

def convert_input_steps_to_environment (inputSteps : List InputStep) (stage_name : Txt) : Txt :=
  if inputSteps.isEmpty then [] else lc "approval-" ++ sanitize_name (pyLower stage_name)

structure ActionInput where
  description : Txt
  required : Bool
  dflt : Txt
deriving DecidableEq

structure ActionDef where
  name : Txt
  description : Txt
  inputs : List (Txt × ActionInput)
  steps : List Step
deriving DecidableEq

/-- The filter on basic shell commands (duplicates of specialised steps). -/
def cmdKept (sonarNonEmpty : Bool) (cmd : Txt) : Bool :=
  !((lc "git ").isPrefixOf cmd ||
    containsSub cmd (lc "withSonarQubeEnv") ||
    (lc "docker build").isPrefixOf cmd ||
    (lc "docker push").isPrefixOf cmd ||
    (containsSub cmd (lc "mvn sonar:sonar") && sonarNonEmpty))

def inputKeyOf (envKey : Txt) : Txt := pyReplace (pyLower envKey) (lc "_") (lc "-")

def generate_enhanced_composite_action (stage_name stage_body : Txt)
    (stage_env : List (Txt × Txt)) (stageAgent : Agent)
    (post_info : List (Txt × PostData)) : ActionDef :=
  let tools := extract_tools stage_body
  let git_steps := extract_git_steps stage_body
  let sonar_steps := extract_sonarqube_steps stage_body
  let docker_steps := extract_docker_steps stage_body
  let kubectl_commands := extract_kubectl_steps stage_body
  let _input_steps := extract_input_steps stage_body
  let _agent := stageAgent
  let credentials := extract_credentials_usage stage_body
  let basic_commands := extract_steps_commands stage_body
  let inputs := stage_env.foldl
    (fun acc kv =>
      dictUpd acc (inputKeyOf kv.1)
        ⟨lc "Environment variable " ++ kv.1, false, kv.2⟩)
    []
  let steps := generate_tool_setup_steps tools
  let steps := steps ++ (if git_steps.isEmpty then [] else convert_git_steps_to_actions git_steps)
  let steps := steps ++ (if sonar_steps.isEmpty then [] else convert_sonarqube_steps sonar_steps)
  let steps := steps ++ (if docker_steps.isEmpty then [] else convert_docker_steps docker_steps)
  let filtered_commands := basic_commands.filter (cmdKept (!sonar_steps.isEmpty))
  let steps := steps ++ filtered_commands.enum.map
    (fun ic =>
      { name := some (lc "Run command " ++ (toString (ic.1 + 1)).data),
        run := some ic.2, shell := some (lc "bash"),
        env := if stage_env.isEmpty then []
          else stage_env.map (fun kv =>
            (kv.1, lc "$\x7b\x7b inputs." ++ inputKeyOf kv.1 ++ lc " \x7d\x7d")) })
  let steps := steps ++ kubectl_commands.map
    (fun c => { name := some (lc "Run kubectl command"), run := some c, shell := some (lc "bash") })
  let ssh_credentials := credentials.filter (fun cred => containsSub (pyLower cred) (lc "ssh"))
  let steps := steps ++ ssh_credentials.map
    (fun sc =>
      { name := some (lc "Execute SSH commands"), uses := some (lc "appleboy/ssh-action@v0.1.5"),
        withArgs := [(lc "host", lc "$\x7b\x7b secrets.SSH_HOST \x7d\x7d"),
                     (lc "username", lc "$\x7b\x7b secrets.SSH_USER \x7d\x7d"),
                     (lc "key", lc "$\x7b\x7b secrets." ++ normSecretName sc ++ lc " \x7d\x7d")] })
  let steps := steps ++ ([lc "always", lc "success", lc "failure"].flatMap
    (fun kind =>
      match aLookup kind post_info with
      | none => []
      | some pdata =>
        (match pdata.archive with
         | some ar =>
           [{ name := some (lc "Upload artifacts (" ++ kind ++ lc ")"),
              ifCond := some (kind ++ lc "()"),
              uses := some (lc "actions/upload-artifact@v4"),
              withArgs := [(lc "name", sanitize_name stage_name ++ lc "-" ++ kind ++ lc "-artifacts"),
                           (lc "path", ar)] }]
         | none => [])
        ++ pdata.commands.map (fun cmd =>
          { name := some (lc "Post " ++ kind), ifCond := some (kind ++ lc "()"),
            run := some cmd, shell := some (lc "bash") })))
  { name := stage_name ++ lc " Action",
    description := lc "Enhanced composite action for " ++ stage_name ++ lc " stage",
    inputs := inputs,
    steps := steps }

structure StageInfo where
  name : Txt
  body : Txt
  env : List (Txt × Txt)
  agent : Agent
  post : List (Txt × PostData)
deriving DecidableEq

structure ActionInfo where
  name : Txt
  path : Txt
  env : List (Txt × Txt)
  approvalEnvironment : Txt
  credentials : List Txt
  hasDocker : Bool
  hasKubectl : Bool
  /-- The `action.yml` document written to disk by the (out-of-scope)
  artifact writer; carried in-memory here because persistence is external. -/
  doc : ActionDef
deriving DecidableEq

def save_enhanced_composite_actions (stages_info : List StageInfo) : List ActionInfo :=
  stages_info.map (fun si =>
    let action_name := sanitize_name (pyLower si.name)
    let action_def := generate_enhanced_composite_action si.name si.body si.env si.agent si.post
    let input_steps := extract_input_steps si.body
    { name := si.name,
      path := lc "./.github/actions/" ++ action_name,
      env := si.env,
      approvalEnvironment := convert_input_steps_to_environment input_steps si.name,
      credentials := extract_credentials_usage si.body,
      hasDocker := !(extract_docker_steps si.body).isEmpty,
      hasKubectl := !(extract_kubectl_steps si.body).isEmpty,
      doc := action_def })

/-- Modelled from the spec: the module `agent_mapper.py` (the label-to-runner
collaborator `map_label_to_runs_on`) is not among the provided sources; the
spec specifies it only as an external black-box lookup
`mapLabel(labelString) -> runnerIdentifier`.  No claim depends on its output
values, so it is modelled as the identity on the label. -/
def map_label_to_runs_on (label : Txt) : Txt := label

/-! ## converter.py -/

structure Container where
  image : Txt
  options : Option Txt := none
deriving DecidableEq

/-- The `needs` value of a job: absent, a single job id (Python string), or
a list of job ids.  `Needs.list` gives the dependency list it denotes. -/
inductive Needs where
  | absent
  | one (id : Txt)
  | many (ids : List Txt)
deriving DecidableEq

def Needs.list : Needs → List Txt
  | absent => []
  | one i => [i]
  | many l => l

structure JobDef where
  runsOn : Txt
  container : Option Container := none
  env : List (Txt × Txt) := []
  ifCond : Option Txt := none
  needs : Needs := Needs.absent
  environment : Option Txt := none
  steps : List Step := []
  displayName : Option Txt := none
deriving DecidableEq

structure WfInput where
  description : Txt
  required : Bool
  dflt : PVal
  wtype : Txt
  options : Option (List Txt) := none
deriving DecidableEq

structure GhaWorkflow where
  name : Txt
  pushBranches : List Txt
  dispatchInputs : Option (List (Txt × WfInput))
  env : List (Txt × Txt)
  jobs : List (Txt × JobDef)
deriving DecidableEq

/-- The pipeline-level defaults threaded through the stage loop. -/
structure Ctx where
  defaultRunsOn : Txt
  defaultContainer : Option Container
  globalEnv : List (Txt × Txt)
deriving DecidableEq

structure LoopSt where
  jobs : List (Txt × JobDef)
  stagesInfo : List StageInfo
  lastJobIds : List Txt
  prevJobId : Txt
deriving DecidableEq

def defaultsOfAgent (ga : Agent) : Txt × Option Container :=
  match ga with
  | Agent.noAgent => (lc "ubuntu-latest", none)
  | Agent.any => (lc "ubuntu-latest", none)
  | Agent.label l => (map_label_to_runs_on l, none)
  | Agent.docker img args _ => (lc "ubuntu-latest", some ⟨img, args⟩)

def compute_job_env (ctx : Ctx) (stage_env : List (Txt × Txt)) : List (Txt × Txt) :=
  if stage_env.isEmpty then []
  else if ctx.globalEnv.isEmpty then stage_env
  else stage_env.filter (fun kv =>
    match aLookup kv.1 ctx.globalEnv with
    | none => true
    | some gv => gv ≠ kv.2)

def applyAgent (ctx : Ctx) (stage_agent : Agent) : Txt × Option Container :=
  match stage_agent with
  | Agent.noAgent => (ctx.defaultRunsOn, ctx.defaultContainer)
  | Agent.any => (lc "ubuntu-latest", none)
  | Agent.label l => (map_label_to_runs_on l, none)
  | Agent.docker img args _ => (lc "ubuntu-latest", some ⟨img, args⟩)

def checkoutStep : Step := { uses := some (lc "actions/checkout@v4") }

def create_enhanced_job_steps (ai : ActionInfo) : List Step :=
  (if ai.credentials.any (fun cred => containsSub (pyLower cred) (lc "git")) then []
   else [checkoutStep])
  ++ [{ name := some (lc "Run " ++ ai.name), uses := some ai.path,
        withArgs :=
          if ai.env.isEmpty then []
          else ai.env.foldl
            (fun acc kv =>
              dictUpd acc (inputKeyOf kv.1) (lc "$\x7b\x7b env." ++ kv.1 ++ lc " \x7d\x7d"))
            [] }]

def ifCondOfBranch (branch : Txt) : Option Txt :=
  if branch.isEmpty then none
  else some (lc "github.ref == \x27refs/heads/" ++ branch ++ lc "\x27")

/-- The stage-info record the loop appends to `stages_info` for one stage. -/
def stageInfoFor (stage : StageRec) : StageInfo :=
  ⟨stage.name, stage.content, extract_stage_environment stage.content,
   extract_stage_agent stage.content, extract_stage_post stage.content⟩

/-- The job definition built for one stage (sequential or parallel sub),
before the post-generation step rewrite; the dependency value is passed in. -/
def stageJobBase (ctx : Ctx) (stage : StageRec) (deps : Needs) : JobDef :=
  let roCo := applyAgent ctx (extract_stage_agent stage.content)
  { runsOn := roCo.1, container := roCo.2,
    env := compute_job_env ctx (extract_stage_environment stage.content),
    ifCond := ifCondOfBranch (extract_stage_when_branch stage.content),
    needs := deps, steps := [checkoutStep] }

/-- Dependencies of a sequential stage: `last_job_ids` if a parallel group
just closed, else the previous job id if any. -/
def seqNeeds (st : LoopSt) : Needs :=
  if !st.lastJobIds.isEmpty then Needs.many st.lastJobIds
  else if !st.prevJobId.isEmpty then Needs.one st.prevJobId
  else Needs.absent

/-- Dependencies of a parallel sub-stage: the shared upstream, if any. -/
def parNeeds (upstream : Option Txt) : Needs :=
  match upstream with
  | some u => Needs.one u
  | none => Needs.absent

/-- The body of the sequential-stage arm of the main stage loop. -/
def processSeq (ctx : Ctx) (stage : StageRec) (st : LoopSt) : LoopSt :=
  { jobs := dictUpd st.jobs (gha_job_id stage.name) (stageJobBase ctx stage (seqNeeds st)),
    stagesInfo := st.stagesInfo ++ [stageInfoFor stage],
    lastJobIds := [],
    prevJobId := gha_job_id stage.name }

/-- One parallel sub-stage (all sub-stages share the same upstream). -/
def processSub (ctx : Ctx) (upstream : Option Txt) (sub : StageRec) (st : LoopSt) : LoopSt :=
  { jobs := dictUpd st.jobs (gha_job_id sub.name)
      (stageJobBase ctx sub (parNeeds upstream)),
    stagesInfo := st.stagesInfo ++ [stageInfoFor sub],
    lastJobIds := st.lastJobIds,
    prevJobId := st.prevJobId }

/-- The parallel arm: `upstream = prev_job_id or last_job_ids[-1]`, then one
job per sub-stage; afterwards `last_job_ids := parallel_ids, prev := ""`. -/
def processPar (ctx : Ctx) (subs : List StageRec) (st : LoopSt) : LoopSt :=
  let upstream := if !st.prevJobId.isEmpty then some st.prevJobId else st.lastJobIds.getLast?
  let st1 := subs.foldl (fun acc sub => processSub ctx upstream sub acc) st
  { st1 with lastJobIds := subs.map (fun sub => gha_job_id sub.name), prevJobId := [] }

def processStages (ctx : Ctx) : List StageRec → LoopSt → LoopSt
  | [], st => st
  | stage :: rest, st =>
    let subs := extract_parallel stage.content
    if subs.isEmpty then processStages ctx rest (processSeq ctx stage st)
    else processStages ctx rest (processPar ctx subs st)

def applyActInfo (ai : ActionInfo) (j : JobDef) : JobDef :=
  let j := if ai.approvalEnvironment.isEmpty then j
           else { j with environment := some ai.approvalEnvironment }
  { j with steps := create_enhanced_job_steps ai }

/-- The post-generation loop `for i, job_key in enumerate(job_keys): if i <
len(action_paths): ...` pairs jobs with action metadata by index. -/
def updateJobsAux : List (Txt × JobDef) → List ActionInfo → List (Txt × JobDef)
  | [], _ => []
  | rest, [] => rest
  | (k, j) :: rest, ai :: ais => (k, applyActInfo ai j) :: updateJobsAux rest ais

def mailStep (kind mailTo : Txt) : Step :=
  { name := some (lc "Send notification on " ++ kind),
    ifCond := some (kind ++ lc "()"),
    uses := some (lc "dawidd6/action-send-mail@v3"),
    withArgs := [(lc "server_address", lc "smtp.gmail.com"),
                 (lc "server_port", lc "587"),
                 (lc "username", lc "$\x7b\x7b secrets.EMAIL_USERNAME \x7d\x7d"),
                 (lc "password", lc "$\x7b\x7b secrets.EMAIL_PASSWORD \x7d\x7d"),
                 (lc "subject", lc "Pipeline " ++ kind ++ lc ": $\x7b\x7b github.workflow \x7d\x7d"),
                 (lc "to", mailTo),
                 (lc "from", lc "$\x7b\x7b secrets.EMAIL_USERNAME \x7d\x7d"),
                 (lc "body", lc "Pipeline " ++ kind ++
                   lc " for $\x7b\x7b github.repository \x7d\x7d - $\x7b\x7b github.sha \x7d\x7d")] }

def postKindSteps (kind : Txt) (pdata : PostData) : List Step :=
  (match pdata.archive with
   | some ar =>
     [{ name := some (lc "Upload artifacts (" ++ kind ++ lc ")"),
        ifCond := some (kind ++ lc "()"),
        uses := some (lc "actions/upload-artifact@v4"),
        withArgs := [(lc "name", lc "pipeline-" ++ kind ++ lc "-artifacts"), (lc "path", ar)] }]
   | none => [])
  ++ (if pdata.commands.isEmpty then []
      else [{ name := some (lc "Pipeline post " ++ kind),
              ifCond := some (kind ++ lc "()"),
              run := some (joinNl pdata.commands) }])
  ++ (match pdata.mailTo with
      | some mt => [mailStep kind mt]
      | none => [])

def pipelinePostSteps (post : List (Txt × PostData)) : List Step :=
  checkoutStep ::
    ([lc "always", lc "success", lc "failure", lc "cleanup"].flatMap
      (fun kind =>
        match aLookup kind post with
        | some pdata => postKindSteps kind pdata
        | none => []))

/-- `gha["jobs"].keys()` in insertion order. -/
def keysOf (jobs : List (Txt × JobDef)) : List Txt := jobs.map (fun p => p.1)

def addPipelinePost (ctx : Ctx) (post : List (Txt × PostData))
    (jobs : List (Txt × JobDef)) : List (Txt × JobDef) :=
  if post.isEmpty then jobs
  else
    let post_job_steps := pipelinePostSteps post
    if post_job_steps.length > 1 then
      let all_jobs := (keysOf jobs).filter (fun k => k ≠ lc "pipeline-post")
      dictUpd jobs (lc "pipeline-post")
        { runsOn := ctx.defaultRunsOn,
          container := ctx.defaultContainer,
          needs := Needs.many all_jobs,
          ifCond := some (lc "always()"),
          steps := post_job_steps,
          displayName := some (lc "Pipeline Post") }
    else jobs

def buildWorkflowInputs (params : List (Txt × ParamInfo)) : List (Txt × WfInput) :=
  params.foldl
    (fun wi p =>
      let desc := if p.2.description.isEmpty then lc "Parameter " ++ p.1 else p.2.description
      if p.2.ptype = lc "string" then
        dictUpd wi p.1 ⟨desc, false, p.2.dflt, lc "string", none⟩
      else if p.2.ptype = lc "boolean" then
        dictUpd wi p.1 ⟨desc, false, p.2.dflt, lc "boolean", none⟩
      else if p.2.ptype = lc "choice" then
        dictUpd wi p.1 ⟨desc, false, p.2.dflt, lc "choice", some p.2.options⟩
      else wi)
    []

def msgNoPipeline : Txt :=
  lc "Not a declarative Jenkins pipeline (no \x27pipeline \x7b ... \x7d\x27 found)."

def msgNoStages : Txt := lc "No \x27stages \x7b ... \x7d\x27 found."

/-- The global environment map of the pipeline body. -/
def globalEnvOf (pb : Txt) : List (Txt × Txt) :=
  match find_block pb (lc "environment") with
  | some (es, ee) => extract_env_kv (slice pb es ee)
  | none => []

/-- The pipeline-level defaults (default runner, default container, global
environment) derived from the pipeline body. -/
def ctxOf (pb : Txt) : Ctx :=
  ⟨(defaultsOfAgent (extract_global_agent pb)).1,
   (defaultsOfAgent (extract_global_agent pb)).2,
   globalEnvOf pb⟩

/-- The loop state after processing all stages of the pipeline. -/
def loopStOf (pb stagesBody : Txt) : LoopSt :=
  processStages (ctxOf pb) (split_stages stagesBody) ⟨[], [], [], []⟩

/-- Everything `convert_jenkins_to_gha` does after both fatal checks passed.
(The source extracts the global agent, parameters and environment before the
stages check; all those extractions are pure, so hoisting them past the check
does not change any output or error.) -/
def convertCore (pb stagesBody : Txt) : GhaWorkflow × List ActionInfo :=
  let workflow_inputs := buildWorkflowInputs (extract_parameters pb)
  let st := loopStOf pb stagesBody
  let action_paths := save_enhanced_composite_actions st.stagesInfo
  let jobs1 := updateJobsAux st.jobs action_paths
  let jobs2 := addPipelinePost (ctxOf pb) (extract_pipeline_post pb) jobs1
  (⟨lc "CI", [lc "master", lc "main"],
    (if workflow_inputs.isEmpty then none else some workflow_inputs),
    globalEnvOf pb, jobs2⟩,
   action_paths)

/-- `convert_jenkins_to_gha` (file writing is out of scope; the returned pair
is the workflow document and the per-stage action metadata). -/
def convert (textIn : Txt) : Except Txt (GhaWorkflow × List ActionInfo) :=
  let text := strip_comments textIn
  match find_block text (lc "pipeline") with
  | none => Except.error msgNoPipeline
  | some (ps, pe) =>
    let pb := slice text ps pe
    match find_block pb (lc "stages") with
    | none => Except.error msgNoStages
    | some (ss, se) => Except.ok (convertCore pb (slice pb ss se))

/-- The stage list the converter processes for a given input text. -/
def stagesListOf (textIn : Txt) : List StageRec :=
  let text := strip_comments textIn
  match find_block text (lc "pipeline") with
  | none => []
  | some (ps, pe) =>
    let pb := slice text ps pe
    match find_block pb (lc "stages") with
    | none => []
    | some (ss, se) => split_stages (slice pb ss se)

/-- The job ids one stage record contributes (one id, or one per parallel
sub-stage). -/
def stageIds (stage : StageRec) : List Txt :=
  let subs := extract_parallel stage.content
  if subs.isEmpty then [gha_job_id stage.name]
  else subs.map (fun sub => gha_job_id sub.name)

def stageJobIds (textIn : Txt) : List Txt :=
  (stagesListOf textIn).flatMap stageIds

/-! # Theorems -/

/-! ## Brace-balance invariant of `find_block` (claim C2) -/

/-- Occurrences of a character in a text. -/
def cnt (c : Char) : Txt → Nat
  | [] => 0
  | x :: rest => (if x = c then 1 else 0) + cnt c rest

theorem scanBraces_spec (l : Txt) :
    ∀ (d r : Nat), scanBraces l d = some r →
      r < l.length ∧ cnt '\x7d' (l.take r) = cnt '\x7b' (l.take r) + d := by
  induction l with
  | nil => intro d r h; simp [scanBraces] at h
  | cons c rest ih =>
    intro d r h
    simp only [scanBraces] at h
    by_cases hb : c = '\x7b'
    · rw [if_pos hb] at h
      cases hs : scanBraces rest (d + 1) with
      | none => rw [hs] at h; simp at h
      | some r' =>
        rw [hs] at h
        simp only [Option.map_some', Option.some.injEq] at h
        subst hb
        obtain ⟨hlt, hcnt⟩ := ih (d + 1) r' hs
        subst h
        refine ⟨by simp; omega, ?_⟩
        simp [List.take_succ_cons, cnt]
        omega
    · rw [if_neg hb] at h
      by_cases hc : c = '\x7d'
      · rw [if_pos hc] at h
        by_cases hd : d = 0
        · rw [if_pos hd] at h
          simp only [Option.some.injEq] at h
          subst h
          subst hd
          simp [cnt]
        · rw [if_neg hd] at h
          cases hs : scanBraces rest (d - 1) with
          | none => rw [hs] at h; simp at h
          | some r' =>
            rw [hs] at h
            simp only [Option.map_some', Option.some.injEq] at h
            subst hc
            obtain ⟨hlt, hcnt⟩ := ih (d - 1) r' hs
            subst h
            refine ⟨by simp; omega, ?_⟩
            simp [List.take_succ_cons, cnt]
            omega
      · rw [if_neg hc] at h
        cases hs : scanBraces rest d with
        | none => rw [hs] at h; simp at h
        | some r' =>
          rw [hs] at h
          simp only [Option.map_some', Option.some.injEq] at h
          obtain ⟨hlt, hcnt⟩ := ih d r' hs
          subst h
          refine ⟨by simp; omega, ?_⟩
          simp [List.take_succ_cons, cnt, hb, hc]
          omega

/-- Claim C2: whenever `find_block` returns a span (rather than the Python
`(-1, -1)` not-found sentinel, modelled as `none`), the span satisfies
`0 ≤ start ≤ end ≤ length` (`start`, `end` are `Nat`, so `0 ≤ start` is
inherent) and the content between `start` and `end` contains equally many
`{` and `}` characters — in particular this holds for any text with
balanced braces. -/
theorem C2_find_block_span (t w : Txt) (s e : Nat)
    (h : find_block t w = some (s, e)) :
    s ≤ e ∧ e ≤ t.length ∧
      cnt '\x7b' (slice t s e) = cnt '\x7d' (slice t s e) := by
  simp only [find_block] at h
  split at h
  any_goals simp at h
  rename_i mEnd hw
  split at h
  any_goals simp at h
  rename_i restB hd
  split at h
  any_goals simp at h
  rename_i r hs
  obtain ⟨rfl, rfl⟩ := h
  set i := mEnd + ((t.drop mEnd).takeWhile pyIsSpace).length with hi
  obtain ⟨hlt, hcnt⟩ := scanBraces_spec restB 0 r hs
  have hdropi : i < t.length := by
    by_contra hge
    rw [List.drop_eq_nil_of_le (by omega)] at hd
    exact absurd hd (by simp)
  have hlen : (t.drop i).length = t.length - i := by simp
  have hrest : restB = t.drop (i + 1) := by
    have htl : (t.drop i).tail = t.drop (i + 1) := by
      rw [← List.drop_drop]
      simp [List.drop_one]
    rw [hd] at htl
    simpa using htl
  have hlenB : restB.length = t.length - i - 1 := by
    rw [hd] at hlen
    simp at hlen
    omega
  refine ⟨by omega, by omega, ?_⟩
  have hslice : slice t (i + 1) (i + 1 + r) = restB.take r := by
    rw [slice, ← hrest]
    congr 1
    omega
  rw [hslice]
  omega

/-- Witness for C2 at a concrete input. -/
theorem C2_find_block_span_witness :
    3 ≤ 6 ∧ 6 ≤ (lc "a \x7b b \x7d").length ∧
      cnt '\x7b' (slice (lc "a \x7b b \x7d") 3 6) =
        cnt '\x7d' (slice (lc "a \x7b b \x7d") 3 6) :=
  C2_find_block_span (lc "a \x7b b \x7d") (lc "a") 3 6 (by decide)

/-! ## Credential extraction (claim C3)

The claim says the extracted set contains exactly the referenced credential
identifiers.  The `re.findall(r"['\"]?([^'\"]+)['\"]?", cred_list)` scan over
an SSH-agent list also captures the separator text between two quoted
entries, so `", "` (stripped to `","`) lands in the set: the code contradicts
its own docstring ("Extract credential IDs used in the stage"). -/

/-- Claim C3 (code bug): for the stage body `sshagent(['a', 'b'])` the
extracted credential set is {"a", ",", "b"} — the separator "," is
collected although the only identifiers referenced are "a" and "b". -/
theorem C3_credentials_spurious_comma :
    extract_credentials_usage (lc "sshagent([\x27a\x27, \x27b\x27])") =
      [lc "a", lc ",", lc "b"] := by decide

/-! ## Ordering of `finditer` matches

`findItP` scans strictly left to right, so the match positions it returns
are strictly increasing.  This drives the order parts of claims C5 and C7. -/

theorem findItP_pos_le (m : MtP α) :
    ∀ (cs : Txt) (prev : Option Char) (pos skip : Nat) (p : Nat) (a : α),
      (p, a) ∈ findItP m prev cs pos skip → pos ≤ p := by
  intro cs
  induction cs with
  | nil => intro prev pos skip p a h; simp [findItP] at h
  | cons c rest ih =>
    intro prev pos skip p a h
    cases skip with
    | succ k =>
      simp only [findItP] at h
      have := ih (some c) (pos + 1) k p a h
      omega
    | zero =>
      simp only [findItP] at h
      cases hm : m prev (c :: rest) with
      | none =>
        rw [hm] at h
        have := ih (some c) (pos + 1) 0 p a h
        omega
      | some ak =>
        rw [hm] at h
        rcases List.mem_cons.mp h with h1 | h2
        · cases h1; omega
        · have := ih (some c) (pos + 1) (ak.2 - 1) p a h2
          omega

theorem findItP_chain (m : MtP α) :
    ∀ (cs : Txt) (prev : Option Char) (pos skip : Nat),
      List.Chain' (fun x y => x.1 < y.1) (findItP m prev cs pos skip) := by
  intro cs
  induction cs with
  | nil => intro prev pos skip; simp [findItP]
  | cons c rest ih =>
    intro prev pos skip
    cases skip with
    | succ k => simpa only [findItP] using ih (some c) (pos + 1) k
    | zero =>
      simp only [findItP]
      cases hm : m prev (c :: rest) with
      | none => exact ih (some c) (pos + 1) 0
      | some ak =>
        refine List.chain'_cons'.mpr ⟨?_, ih (some c) (pos + 1) (ak.2 - 1)⟩
        intro y hy
        have hmem := List.mem_of_mem_head? hy
        have hle := findItP_pos_le m rest (some c) (pos + 1) (ak.2 - 1) y.1 y.2
          (by simpa using hmem)
        simp only
        omega

/-! ## Shell/echo step extraction order (claim C5) -/

/-- The zone scanned by `extract_steps_commands` (the steps block if found,
else the whole body, comment-stripped). -/
def stepsZone (stage_body : Txt) : Txt :=
  strip_comments
    (match find_block stage_body (lc "steps") with
     | some (s, e) => slice stage_body s e
     | none => stage_body)

def tripleMatchesP (zone : Txt) : List (Nat × Txt) :=
  findItP (liftM (toMt pShTriple)) none zone 0 0

def shMatchesP (zone : Txt) : List (Nat × Txt) :=
  findItP (liftM (toMt pShSingle)) none zone 0 0

def echoMatchesP (zone : Txt) : List (Nat × Txt) :=
  findItP mEcho none zone 0 0

/-- Claim C5 (counterexample): the body `steps { echo "first" / sh "second" }`
has its `echo` match at position 8 and its `sh` match at position 22, yet
the extractor returns the `sh` command before the `echo` command — so the
returned sequence is not in first-to-last textual order across the
different command forms. -/
theorem C5_counterexample :
    extract_steps_commands (lc "steps \x7b echo \x22first\x22\n sh \x22second\x22 \x7d") =
      [lc "second", lc "echo first"] ∧
    indexOfSub (lc "steps \x7b echo \x22first\x22\n sh \x22second\x22 \x7d") (lc "echo") = some 8 ∧
    indexOfSub (lc "steps \x7b echo \x22first\x22\n sh \x22second\x22 \x7d") (lc "sh \x22") =
      some 22 := by decide

/-- Claim C5 (amended): `extract_steps_commands` returns the recognized
commands grouped by syntactic category — all lines of triple-quoted `sh`
scripts first, then all single-line `sh` commands, then all `echo` commands —
and within each category the commands appear in first-to-last textual order
of their matches in the scanned zone (match positions strictly increase). -/
theorem C5_steps_commands_grouped_ordered (stage_body : Txt) :
    extract_steps_commands stage_body =
      ((tripleMatchesP (stepsZone stage_body)).map Prod.snd).flatMap multiline_to_commands
        ++ ((shMatchesP (stepsZone stage_body)).map Prod.snd).map pyStrip
        ++ ((echoMatchesP (stepsZone stage_body)).map Prod.snd).map
             (fun g => lc "echo " ++ pyStrip g) ∧
    List.Chain' (· < ·) ((tripleMatchesP (stepsZone stage_body)).map Prod.fst) ∧
    List.Chain' (· < ·) ((shMatchesP (stepsZone stage_body)).map Prod.fst) ∧
    List.Chain' (· < ·) ((echoMatchesP (stepsZone stage_body)).map Prod.fst) := by
  refine ⟨rfl, ?_, ?_, ?_⟩ <;>
    · rw [List.chain'_map]
      exact findItP_chain _ _ _ _ _

/-! ## Stage splitting (claim C7) -/

theorem reSearchP_sound (m : Mt α) :
    ∀ (cs : Txt) (p : Nat) (a : α) (k : Nat),
      reSearchP m cs = some (p, a, k) → m (cs.drop p) = some (a, k) := by
  intro cs
  induction cs with
  | nil =>
    intro p a k h
    simp only [reSearchP] at h
    cases hm : m [] with
    | none => rw [hm] at h; simp at h
    | some ak =>
      rw [hm] at h
      simp at h
      obtain ⟨rfl, rfl, rfl⟩ := h
      simpa using hm
  | cons c rest ih =>
    intro p a k h
    simp only [reSearchP] at h
    cases hm : m (c :: rest) with
    | some ak =>
      rw [hm] at h
      simp at h
      obtain ⟨rfl, rfl, rfl⟩ := h
      simpa using hm
    | none =>
      rw [hm] at h
      simp only [Option.map_eq_some'] at h
      obtain ⟨pak, hp, heq⟩ := h
      obtain ⟨p', a', k'⟩ := pak
      cases heq
      simpa using ih p' a' k' hp

/-- A well-formed stage block at position `q` of `body`: the header pattern
matches there consuming `k` characters (ending at the opening brace), and the
depth-tracked scan finds the closing brace after `r` content characters. -/
def IsStageAt (body : Txt) (q : Nat) (name content : Txt) : Prop :=
  ∃ k r, mStageHeader (body.drop q) = some (name, k) ∧
    scanBraces ((body.drop q).drop k) 0 = some r ∧
    content = ((body.drop q).drop k).take r

theorem splitStagesA_pos_le :
    ∀ (fuel : Nat) (cs : Txt) (pos : Nat) (q : Nat) (st : StageRec),
      (q, st) ∈ splitStagesA fuel cs pos → pos ≤ q := by
  intro fuel
  induction fuel with
  | zero => intro cs pos q st h; simp [splitStagesA] at h
  | succ f ih =>
    intro cs pos q st h
    cases hr : reSearchP mStageHeader cs with
    | none => simp [splitStagesA, hr] at h
    | some rnm =>
      obtain ⟨rel, name, mlen⟩ := rnm
      cases hs : scanBraces (cs.drop (rel + mlen)) 0 with
      | none => simp [splitStagesA, hr, hs] at h
      | some r =>
        simp only [splitStagesA, hr, hs] at h
        rcases List.mem_cons.mp h with h1 | h2
        · cases h1; omega
        · have := ih _ _ q st h2
          omega

theorem splitStagesA_chain :
    ∀ (fuel : Nat) (cs : Txt) (pos : Nat),
      List.Chain' (fun x y => x.1 < y.1) (splitStagesA fuel cs pos) := by
  intro fuel
  induction fuel with
  | zero => intro cs pos; simp [splitStagesA]
  | succ f ih =>
    intro cs pos
    cases hr : reSearchP mStageHeader cs with
    | none => simp [splitStagesA, hr]
    | some rnm =>
      obtain ⟨rel, name, mlen⟩ := rnm
      cases hs : scanBraces (cs.drop (rel + mlen)) 0 with
      | none => simp [splitStagesA, hr, hs]
      | some r =>
        simp only [splitStagesA, hr, hs]
        refine List.chain'_cons'.mpr ⟨?_, ih _ _⟩
        intro y hy
        have hmem := List.mem_of_mem_head? hy
        have hle := splitStagesA_pos_le f _ _ y.1 y.2 (by simpa using hmem)
        simp only
        omega

theorem splitStagesA_sound (body : Txt) :
    ∀ (fuel : Nat) (cs : Txt) (pos : Nat), cs = body.drop pos →
      ∀ q st, (q, st) ∈ splitStagesA fuel cs pos →
        IsStageAt body q st.name st.content := by
  intro fuel
  induction fuel with
  | zero => intro cs pos hcs q st h; simp [splitStagesA] at h
  | succ f ih =>
    intro cs pos hcs q st h
    cases hr : reSearchP mStageHeader cs with
    | none => simp [splitStagesA, hr] at h
    | some rnm =>
      obtain ⟨rel, name, mlen⟩ := rnm
      cases hs : scanBraces (cs.drop (rel + mlen)) 0 with
      | none => simp [splitStagesA, hr, hs] at h
      | some r =>
        simp only [splitStagesA, hr, hs] at h
        have hdropq : cs.drop rel = body.drop (pos + rel) := by
          simp only [hcs, List.drop_drop]
          try congr 1
          try omega
        have hdropk : cs.drop (rel + mlen) = (body.drop (pos + rel)).drop mlen := by
          simp only [hcs, List.drop_drop]
          try congr 1
          try omega
        rcases List.mem_cons.mp h with h1 | h2
        · have hq : q = pos + rel ∧ st = ⟨name, (cs.drop (rel + mlen)).take r⟩ := by
            cases h1; exact ⟨rfl, rfl⟩
          obtain ⟨rfl, rfl⟩ := hq
          refine ⟨mlen, r, ?_, ?_, ?_⟩
          · have hsound := reSearchP_sound mStageHeader cs rel name mlen hr
            rwa [hdropq] at hsound
          · rwa [hdropk] at hs
          · simp only
            rw [hdropk]
        · refine ih _ _ ?_ q st h2
          simp only [hcs, List.drop_drop]
          try congr 1
          try omega

/-- Claim C7 (counterexample): in `stage("A") { stage("B") { } }` the inner
block `stage("B") { }` is a well-formed stage block (at position 13), but its
pair is not returned by the splitter — the splitter resumes after each
captured block and never returns stage blocks nested inside a captured
body, so it does not return *exactly* the pairs of all well-formed stage
blocks. -/
theorem C7_counterexample :
    IsStageAt (lc "stage(\x22A\x22) \x7b stage(\x22B\x22) \x7b \x7d \x7d") 13 (lc "B") (lc " ") ∧
    (StageRec.mk (lc "B") (lc " ")) ∉
      split_stages (lc "stage(\x22A\x22) \x7b stage(\x22B\x22) \x7b \x7d \x7d") :=
  ⟨⟨12, 1, by decide, by decide, by decide⟩, by decide⟩

/-- Claim C7 (amended): the splitter returns exactly the (name, body) pairs
of the well-formed stage blocks it encounters scanning left to right,
resuming just past each captured block (so nested stage headers inside a
captured body are skipped); the returned pairs are in the same order as
their headers appear (header positions strictly increase), each returned
pair is a well-formed stage block at its header position, and on a
brace-balance failure the trailing stage is dropped while the pairs
captured before it are still returned (built into `splitStagesA`). -/
theorem C7_split_stages_ordered_sound (stages_body : Txt) :
    split_stages stages_body =
      (splitStagesA (stages_body.length + 1) stages_body 0).map Prod.snd ∧
    List.Chain' (· < ·)
      ((splitStagesA (stages_body.length + 1) stages_body 0).map Prod.fst) ∧
    ∀ q st, (q, st) ∈ splitStagesA (stages_body.length + 1) stages_body 0 →
      IsStageAt stages_body q st.name st.content := by
  refine ⟨rfl, ?_, ?_⟩
  · rw [List.chain'_map]
    exact splitStagesA_chain _ _ _
  · exact splitStagesA_sound stages_body _ _ 0 (by simp)

/-- Witness for C7 (amended) at a concrete input: the block returned for
`stage("A") { x }` is certified well-formed at position 0. -/
theorem C7_split_stages_ordered_sound_witness :
    IsStageAt (lc "stage(\x22A\x22) \x7b x \x7d") 0 (lc "A") (lc " x ") :=
  (C7_split_stages_ordered_sound (lc "stage(\x22A\x22) \x7b x \x7d")).2.2 0
    ⟨lc "A", lc " x "⟩ (by decide)

/-! ## Association-list update lemmas (for claims C9 and C1) -/

theorem aLookup_append (k : Txt) (l1 l2 : List (Txt × α)) :
    aLookup k (l1 ++ l2) =
      match aLookup k l1 with
      | some v => some v
      | none => aLookup k l2 := by
  induction l1 with
  | nil => simp [aLookup]
  | cons p rest ih =>
    obtain ⟨k1, v1⟩ := p
    by_cases hk : k1 = k
    · simp [aLookup, hk]
    · simp only [List.cons_append, aLookup, if_neg hk]
      exact ih

theorem aLookup_none_of_not_any (k : Txt) (m : List (Txt × α))
    (h : m.any (fun p => p.1 = k) = false) : aLookup k m = none := by
  induction m with
  | nil => simp [aLookup]
  | cons p rest ih =>
    simp only [List.any_cons, Bool.or_eq_false_iff] at h
    obtain ⟨h1, h2⟩ := h
    simp only [aLookup]
    rw [if_neg (by simpa using h1)]
    exact ih h2

theorem aLookup_map_replace (k : Txt) (v : α) (m : List (Txt × α))
    (h : m.any (fun p => p.1 = k) = true) :
    aLookup k (m.map (fun p => if p.1 = k then (k, v) else p)) = some v := by
  induction m with
  | nil => simp at h
  | cons p rest ih =>
    obtain ⟨k1, v1⟩ := p
    simp only [List.map_cons]
    by_cases hk : k1 = k
    · have hhead : (if (k1, v1).1 = k then (k, v) else (k1, v1)) = (k, v) := by simp [hk]
      rw [hhead]
      simp [aLookup]
    · have hhead : (if (k1, v1).1 = k then (k, v) else (k1, v1)) = (k1, v1) := by simp [hk]
      rw [hhead]
      simp only [aLookup, if_neg hk]
      apply ih
      simp only [List.any_cons] at h
      rcases Bool.or_eq_true_iff.mp h with h1 | h2
      · exact absurd (by simpa using h1) hk
      · exact h2

theorem aLookup_map_replace_ne (k k' : Txt) (v : α) (m : List (Txt × α))
    (hne : k' ≠ k) :
    aLookup k' (m.map (fun p => if p.1 = k then (k, v) else p)) = aLookup k' m := by
  induction m with
  | nil => simp
  | cons p rest ih =>
    obtain ⟨k1, v1⟩ := p
    simp only [List.map_cons]
    by_cases hk : k1 = k
    · have hhead : (if (k1, v1).1 = k then (k, v) else (k1, v1)) = (k, v) := by simp [hk]
      rw [hhead]
      have hne1 : ¬ k = k' := fun hh => hne hh.symm
      have hne2 : ¬ k1 = k' := by rw [hk]; exact hne1
      simp only [aLookup, if_neg hne1, if_neg hne2]
      exact ih
    · have hhead : (if (k1, v1).1 = k then (k, v) else (k1, v1)) = (k1, v1) := by simp [hk]
      rw [hhead]
      simp only [aLookup]
      by_cases hk' : k1 = k'
      · simp [hk']
      · rw [if_neg hk', if_neg hk']
        exact ih

theorem aLookup_dictUpd_self (m : List (Txt × α)) (k : Txt) (v : α) :
    aLookup k (dictUpd m k v) = some v := by
  unfold dictUpd
  split
  next h => exact aLookup_map_replace k v m h
  next h =>
    rw [aLookup_append]
    rw [aLookup_none_of_not_any k m (by simp only [Bool.not_eq_true] at h; exact h)]
    simp [aLookup]

theorem aLookup_dictUpd_ne (m : List (Txt × α)) (k k' : Txt) (v : α)
    (hne : k' ≠ k) : aLookup k' (dictUpd m k v) = aLookup k' m := by
  unfold dictUpd
  split
  next h => exact aLookup_map_replace_ne k k' v m hne
  next h =>
    rw [aLookup_append]
    cases hl : aLookup k' m with
    | some v' => simp
    | none =>
      simp [aLookup, if_neg hne]
      exact fun hh => hne hh.symm

/-- The value of the textually last declaration for a key, among a list of
(key, value) declarations in textual order. -/
def lastVal (k : Txt) : List (Txt × α) → Option α
  | [] => none
  | p :: rest =>
    match lastVal k rest with
    | some v => some v
    | none => if p.1 = k then some p.2 else none

theorem aLookup_foldl_dictUpd (k : Txt) :
    ∀ (us : List (Txt × α)) (init : List (Txt × α)),
      aLookup k (us.foldl (fun a p => dictUpd a p.1 p.2) init) =
        match lastVal k us with
        | some v => some v
        | none => aLookup k init := by
  intro us
  induction us with
  | nil => intro init; simp [lastVal]
  | cons p rest ih =>
    intro init
    simp only [List.foldl_cons, lastVal]
    rw [ih (dictUpd init p.1 p.2)]
    cases hlv : lastVal k rest with
    | some v => simp
    | none =>
      simp only
      by_cases hk : p.1 = k
      · rw [if_pos hk, hk, aLookup_dictUpd_self]
      · rw [if_neg hk, aLookup_dictUpd_ne init p.1 k p.2 (fun hh => hk hh.symm)]

theorem dictUpd_keys_nodup (m : List (Txt × α)) (k : Txt) (v : α)
    (h : (m.map Prod.fst).Nodup) : ((dictUpd m k v).map Prod.fst).Nodup := by
  unfold dictUpd
  split
  next ha =>
    have hkeys : (m.map (fun p => if p.1 = k then (k, v) else p)).map Prod.fst =
        m.map Prod.fst := by
      rw [List.map_map]
      apply List.map_congr_left
      intro p hp
      by_cases hk : p.1 = k
      · simp [hk]
      · simp [hk]
    rw [hkeys]
    exact h
  next ha =>
    rw [List.map_append]
    rw [List.nodup_append]
    refine ⟨h, by simp, ?_⟩
    intro x hx
    simp only [List.map_cons, List.map_nil, List.mem_singleton]
    intro hxk
    subst hxk
    simp only [List.any_eq_true] at ha
    rw [List.mem_map] at hx
    obtain ⟨p, hp, hpk⟩ := hx
    exact ha ⟨p, hp, by simpa using hpk⟩

theorem foldl_dictUpd_keys_nodup (us : List (Txt × α)) :
    ∀ (init : List (Txt × α)), ((init.map Prod.fst).Nodup) →
      (((us.foldl (fun a p => dictUpd a p.1 p.2) init).map Prod.fst).Nodup) := by
  induction us with
  | nil => intro init h; simpa using h
  | cons p rest ih =>
    intro init h
    simp only [List.foldl_cons]
    exact ih _ (dictUpd_keys_nodup init p.1 p.2 h)

/-! ## Duplicate parameter declarations (claim C9) -/

/-- Claim C9 (counterexample): in a parameters block declaring `choice(name:
'P', ...)` first (position 13) and `string(name: 'P', ...)` last (position
52), the extracted entry for `P` has type `"choice"`, not the type of the
textually last declaration (`"string"`): the three forms are scanned in
separate passes (string, then boolean, then choice), so a choice declaration
beats a textually later string declaration. -/
theorem C9_counterexample :
    (aLookup (lc "P") (extract_parameters
        (lc "parameters \x7b choice(name: \x27P\x27, choices: [\x27a\x27, \x27b\x27]) string(name: \x27P\x27, defaultValue: \x27z\x27) \x7d"))).map
        ParamInfo.ptype = some (lc "choice") ∧
    indexOfSub
        (lc "parameters \x7b choice(name: \x27P\x27, choices: [\x27a\x27, \x27b\x27]) string(name: \x27P\x27, defaultValue: \x27z\x27) \x7d")
        (lc "choice(") = some 13 ∧
    indexOfSub
        (lc "parameters \x7b choice(name: \x27P\x27, choices: [\x27a\x27, \x27b\x27]) string(name: \x27P\x27, defaultValue: \x27z\x27) \x7d")
        (lc "string(") = some 52 ∧
    lc "choice" ≠ lc "string" := by decide

/-- Claim C9 (amended): the extracted parameter map has exactly one entry
per name (its key list is duplicate-free), and the entry for a name is taken
from the textually last declaration of that name *within the
highest-priority form in which the name is declared*, where the forms are
prioritised choice over boolean over string (the scanner processes all
string declarations, then all boolean ones, then all choice ones, later
assignments overwriting earlier ones). -/
theorem C9_parameters_last_decl_per_kind (pipeline_body nm : Txt) (ps pe : Nat)
    (hblk : find_block pipeline_body (lc "parameters") = some (ps, pe)) :
    aLookup nm (extract_parameters pipeline_body) =
      (match lastVal nm (choiceParamDecls (slice pipeline_body ps pe)) with
       | some v => some v
       | none =>
         match lastVal nm (boolParamDecls (slice pipeline_body ps pe)) with
         | some v => some v
         | none => lastVal nm (stringParamDecls (slice pipeline_body ps pe))) ∧
    ((extract_parameters pipeline_body).map Prod.fst).Nodup := by
  constructor
  · simp only [extract_parameters, hblk]
    rw [aLookup_foldl_dictUpd, aLookup_foldl_dictUpd, aLookup_foldl_dictUpd]
    cases lastVal nm (choiceParamDecls (slice pipeline_body ps pe)) <;>
      cases lastVal nm (boolParamDecls (slice pipeline_body ps pe)) <;>
        cases lastVal nm (stringParamDecls (slice pipeline_body ps pe)) <;>
          simp [aLookup]
  · simp only [extract_parameters, hblk]
    apply foldl_dictUpd_keys_nodup
    apply foldl_dictUpd_keys_nodup
    apply foldl_dictUpd_keys_nodup
    simp

/-- Witness for C9 (amended) at a concrete input. -/
theorem C9_parameters_last_decl_per_kind_witness :
    aLookup (lc "X") (extract_parameters (lc "parameters \x7b string(name: \x27X\x27) \x7d")) =
      (match lastVal (lc "X")
          (choiceParamDecls (slice (lc "parameters \x7b string(name: \x27X\x27) \x7d") 12 31)) with
       | some v => some v
       | none =>
         match lastVal (lc "X")
            (boolParamDecls (slice (lc "parameters \x7b string(name: \x27X\x27) \x7d") 12 31)) with
         | some v => some v
         | none => lastVal (lc "X")
            (stringParamDecls (slice (lc "parameters \x7b string(name: \x27X\x27) \x7d") 12 31))) ∧
    ((extract_parameters (lc "parameters \x7b string(name: \x27X\x27) \x7d")).map Prod.fst).Nodup :=
  C9_parameters_last_decl_per_kind (lc "parameters \x7b string(name: \x27X\x27) \x7d") (lc "X")
    12 31 (by decide)

/-! ## Credential-to-secret normalisation in checkout steps (claim C6) -/

theorem pyReplaceF_single_char (a b : Char) :
    ∀ (fuel : Nat) (s : Txt), s.length < fuel →
      pyReplaceF fuel s [a] [b] = s.map (fun c => if c = a then b else c) := by
  intro fuel
  induction fuel with
  | zero => intro s h; omega
  | succ f ih =>
    intro s h
    cases s with
    | nil => simp [pyReplaceF]
    | cons c rest =>
      have hr : rest.length < f := by simp at h; omega
      by_cases hc : c = a
      · have hcond : (!([a] : Txt).isEmpty && ([a] : Txt).isPrefixOf (c :: rest)) = true := by
          simp [List.isPrefixOf, hc]
        simp only [pyReplaceF, hcond, if_true, List.length_singleton, List.map_cons]
        rw [show (1 : Nat) - 1 = 0 from rfl, List.drop_zero, ih rest hr]
        simp [hc]
      · have hcond : (!([a] : Txt).isEmpty && ([a] : Txt).isPrefixOf (c :: rest)) = false := by
          simp [List.isPrefixOf, beq_iff_eq]
          exact fun hh => hc hh.symm
        simp only [pyReplaceF, hcond, Bool.false_eq_true, if_false, List.map_cons]
        rw [ih rest hr]
        simp [hc]

/-- The spec-side normalisation of the amended claim: uppercase, then each
hyphen becomes an underscore; every other character (including `.` and
spaces) is kept. -/
def upperHyphenToUnderscore (credId : Txt) : Txt :=
  (pyUpper credId).map (fun c => if c = '-' then '_' else c)

theorem normSecretName_eq (credId : Txt) :
    normSecretName credId = upperHyphenToUnderscore credId := by
  unfold normSecretName pyReplace upperHyphenToUnderscore
  rw [show lc "-" = ['-'] from rfl, show lc "_" = ['_'] from rfl]
  exact pyReplaceF_single_char '-' '_' _ _ (by omega)

theorem aLookup_append_none (k : Txt) (l1 l2 : List (Txt × α))
    (h : aLookup k l1 = none) : aLookup k (l1 ++ l2) = aLookup k l2 := by
  rw [aLookup_append, h]

theorem aLookup_singleton_ne (k k' : Txt) (v : α) (hne : k' ≠ k) :
    aLookup k [(k', v)] = none := by
  simp only [aLookup]
  rw [if_neg hne]

theorem gitRepoPart_token_none (g : GitStep) :
    aLookup (lc "token") (gitRepoPart g) = none := by
  unfold gitRepoPart
  split_ifs <;> rfl

theorem gitRefPart_token_none (g : GitStep) :
    aLookup (lc "token") (gitRefPart g) = none := by
  unfold gitRefPart
  split_ifs
  · rfl
  · cases reSearch (liftM (toMt pParamsRef)) g.branch with
    | none => rfl
    | some pn => exact aLookup_singleton_ne _ _ _ (by decide)
  · exact aLookup_singleton_ne _ _ _ (by decide)

/-- Claim C6 (counterexample): for a git step with credential id
`my.deploy key` the generated token input is `${{ secrets.MY.DEPLOY KEY }}` —
the code only uppercases and replaces hyphens, so the claimed secret name
`MY_DEPLOY_KEY` (non-alphanumeric runs replaced by underscore) is not
produced. -/
theorem C6_counterexample :
    aLookup (lc "token")
        (convertGitStep ⟨lc "", lc "https://github.com/o/r.git", lc "my.deploy key"⟩).withArgs =
      some (lc "$\x7b\x7b secrets.MY.DEPLOY KEY \x7d\x7d") ∧
    lc "MY.DEPLOY KEY" ≠ lc "MY_DEPLOY_KEY" := by decide

/-- Claim C6 (amended): for every git-checkout record with a non-empty
credentialsId `c`, the generated checkout step's token input is
`${{ secrets.N }}` where `N` is `c` uppercased with every hyphen replaced by
an underscore (all other characters, including other non-alphanumeric ones,
are kept unchanged). -/
theorem C6_git_token_secret_name (g : GitStep)
    (h : g.credentialsId.isEmpty = false) :
    aLookup (lc "token") (convertGitStep g).withArgs =
      some (lc "$\x7b\x7b secrets." ++ upperHyphenToUnderscore g.credentialsId ++
        lc " \x7d\x7d") := by
  have hw : (convertGitStep g).withArgs = gitStepWith g := rfl
  rw [hw]
  unfold gitStepWith
  rw [aLookup_append_none _ _ _
    (by
      rw [aLookup_append_none _ _ _ (gitRepoPart_token_none g)]
      exact gitRefPart_token_none g)]
  unfold gitCredPart
  rw [if_neg (by simp [h])]
  simp only [aLookup, if_true, normSecretName_eq]

/-- Witness for C6 (amended) at a concrete input. -/
theorem C6_git_token_secret_name_witness :
    aLookup (lc "token")
        (convertGitStep ⟨lc "main", lc "o/r", lc "my-token"⟩).withArgs =
      some (lc "$\x7b\x7b secrets." ++ upperHyphenToUnderscore (lc "my-token") ++
        lc " \x7d\x7d") :=
  C6_git_token_secret_name ⟨lc "main", lc "o/r", lc "my-token"⟩ (by decide)

/-! ## Fatal conditions of the conversion (claim C4) -/

def exceptOk : Except ε α → Bool
  | Except.ok _ => true
  | Except.error _ => false

/-- Claim C4: the conversion fails exactly when the comment-stripped input
has no brace-balanced `pipeline` block (including an unterminated
`pipeline {` or no `pipeline` keyword), or when that block has no `stages`
block; in each case it fails immediately with the corresponding descriptive
message and produces no workflow and no action metadata (the error carries
no partial output); when both blocks are present, the conversion succeeds —
there is no other fatal condition. -/
theorem C4_fatal_conditions (textIn : Txt) :
    (find_block (strip_comments textIn) (lc "pipeline") = none →
      convert textIn = Except.error msgNoPipeline) ∧
    (∀ ps pe, find_block (strip_comments textIn) (lc "pipeline") = some (ps, pe) →
      (find_block (slice (strip_comments textIn) ps pe) (lc "stages") = none →
        convert textIn = Except.error msgNoStages) ∧
      (∀ ss se,
        find_block (slice (strip_comments textIn) ps pe) (lc "stages") = some (ss, se) →
        exceptOk (convert textIn) = true)) := by
  refine ⟨?_, ?_⟩
  · intro h
    simp [convert, h]
  · intro ps pe hp
    refine ⟨?_, ?_⟩
    · intro h
      simp [convert, hp, h]
    · intro ss se hs
      simp [convert, hp, hs, exceptOk]

/-- Witness for C4: a text without a pipeline keyword, a text with an
unterminated `pipeline {`, a pipeline without stages, and a complete
pipeline. -/
theorem C4_fatal_conditions_witness :
    convert (lc "x") = Except.error msgNoPipeline ∧
    convert (lc "pipeline \x7b") = Except.error msgNoPipeline ∧
    convert (lc "pipeline \x7b \x7d") = Except.error msgNoStages ∧
    exceptOk (convert (lc "pipeline \x7b stages \x7b \x7d \x7d")) = true :=
  ⟨(C4_fatal_conditions (lc "x")).1 (by decide),
   (C4_fatal_conditions (lc "pipeline \x7b")).1 (by decide),
   ((C4_fatal_conditions (lc "pipeline \x7b \x7d")).2 10 11 (by decide)).1 (by decide),
   ((C4_fatal_conditions (lc "pipeline \x7b stages \x7b \x7d \x7d")).2 10 22
     (by decide)).2 9 10 (by decide)⟩

/-! ## Dependency-edge soundness (claims C1 and C8)

`jobsOk` states the claim: walking the jobs mapping in insertion order,
every `needs` entry of a job names a key that occurs strictly earlier. -/

def needsOk (seen : List Txt) (n : Needs) : Bool :=
  n.list.all (fun x => decide (x ∈ seen))

def jobsOkAux (seen : List Txt) : List (Txt × JobDef) → Bool
  | [] => true
  | (k, j) :: rest => needsOk seen j.needs && jobsOkAux (seen ++ [k]) rest

/-- No forward references: every job's dependency list names only job ids
that appear strictly earlier in the jobs mapping. -/
def jobsOk (jobs : List (Txt × JobDef)) : Bool := jobsOkAux [] jobs

/-- The jobs component of a conversion result (empty on error). -/
def jobsOfResult : Except Txt (GhaWorkflow × List ActionInfo) → List (Txt × JobDef)
  | Except.ok p => p.1.jobs
  | Except.error _ => []

theorem jobsOkAux_append :
    ∀ (l : List (Txt × JobDef)) (seen : List Txt) (k : Txt) (j : JobDef),
      jobsOkAux seen (l ++ [(k, j)]) =
        (jobsOkAux seen l && needsOk (seen ++ keysOf l) j.needs) := by
  intro l
  induction l with
  | nil => intro seen k j; simp [jobsOkAux, keysOf]
  | cons p rest ih =>
    intro seen k j
    obtain ⟨k1, j1⟩ := p
    simp only [List.cons_append, jobsOkAux, List.append_eq]
    rw [ih (seen ++ [k1]) k j]
    have harg : (seen ++ [k1]) ++ keysOf rest = seen ++ keysOf ((k1, j1) :: rest) := by
      simp [keysOf]
    rw [harg, ← Bool.and_assoc]

theorem applyActInfo_needs (ai : ActionInfo) (j : JobDef) :
    (applyActInfo ai j).needs = j.needs := by
  unfold applyActInfo
  split_ifs <;> rfl

theorem updateJobsAux_jobsOkAux :
    ∀ (l : List (Txt × JobDef)) (seen : List Txt) (ais : List ActionInfo),
      jobsOkAux seen (updateJobsAux l ais) = jobsOkAux seen l := by
  intro l
  induction l with
  | nil => intro seen ais; cases ais <;> rfl
  | cons p rest ih =>
    intro seen ais
    cases ais with
    | nil => rfl
    | cons ai ais2 =>
      obtain ⟨k, j⟩ := p
      simp only [updateJobsAux, jobsOkAux, applyActInfo_needs]
      rw [ih (seen ++ [k]) ais2]

theorem updateJobsAux_keys :
    ∀ (l : List (Txt × JobDef)) (ais : List ActionInfo),
      keysOf (updateJobsAux l ais) = keysOf l := by
  intro l
  induction l with
  | nil => intro ais; cases ais <;> rfl
  | cons p rest ih =>
    intro ais
    cases ais with
    | nil => rfl
    | cons ai ais2 =>
      obtain ⟨k, j⟩ := p
      simp only [updateJobsAux, keysOf, List.map_cons]
      exact congrArg (List.cons k) (ih ais2)

theorem dictUpd_fresh (m : List (Txt × α)) (k : Txt) (v : α)
    (h : ¬ k ∈ m.map (fun p => p.1)) :
    dictUpd m k v = m ++ [(k, v)] := by
  have hany : (m.any fun p => p.1 = k) = false := by
    by_contra hc
    rw [Bool.not_eq_false, List.any_eq_true] at hc
    obtain ⟨p, hp, hpk⟩ := hc
    exact h (List.mem_map.mpr ⟨p, hp, by simpa using hpk⟩)
  unfold dictUpd
  rw [if_neg (by simp [hany])]

theorem mem_of_getLastQ : ∀ (l : List Txt) (u : Txt), l.getLast? = some u → u ∈ l := by
  intro l
  induction l with
  | nil => simp
  | cons a rest ih =>
    intro u h
    cases rest with
    | nil =>
      simp only [List.getLast?_singleton, Option.some.injEq] at h
      simp [h]
    | cons b r2 =>
      rw [List.getLast?_cons_cons] at h
      exact List.mem_cons_of_mem _ (ih u h)

/-- The loop invariant of the stage-processing loop. -/
def LoopInv (st : LoopSt) : Prop :=
  jobsOk st.jobs = true ∧
  (st.prevJobId = [] ∨ st.prevJobId ∈ keysOf st.jobs) ∧
  (∀ x ∈ st.lastJobIds, x ∈ keysOf st.jobs)

theorem seqNeeds_ok (st : LoopSt) (hinv : LoopInv st) :
    needsOk (keysOf st.jobs) (seqNeeds st) = true := by
  obtain ⟨hok, hprev, hlast⟩ := hinv
  unfold seqNeeds
  split_ifs with h1 h2
  · simp only [needsOk, Needs.list, List.all_eq_true, decide_eq_true_eq]
    exact hlast
  · simp only [needsOk, Needs.list, List.all_eq_true, decide_eq_true_eq]
    intro x hx
    rw [List.mem_singleton] at hx
    subst hx
    rcases hprev with hp | hp
    · rw [hp] at h2
      simp at h2
    · exact hp
  · simp [needsOk, Needs.list]

theorem processSeq_spec (ctx : Ctx) (stage : StageRec) (st : LoopSt)
    (hinv : LoopInv st) (hfresh : ¬ gha_job_id stage.name ∈ keysOf st.jobs) :
    LoopInv (processSeq ctx stage st) ∧
    keysOf (processSeq ctx stage st).jobs =
      keysOf st.jobs ++ [gha_job_id stage.name] := by
  have hjobs : (processSeq ctx stage st).jobs =
      st.jobs ++ [(gha_job_id stage.name, stageJobBase ctx stage (seqNeeds st))] :=
    dictUpd_fresh st.jobs _ _ hfresh
  have hkeys : keysOf (processSeq ctx stage st).jobs =
      keysOf st.jobs ++ [gha_job_id stage.name] := by
    rw [hjobs]
    simp [keysOf]
  refine ⟨⟨?_, ?_, ?_⟩, hkeys⟩
  · show jobsOk (processSeq ctx stage st).jobs = true
    rw [hjobs]
    unfold jobsOk
    rw [jobsOkAux_append, Bool.and_eq_true]
    refine ⟨hinv.1, ?_⟩
    rw [List.nil_append]
    exact seqNeeds_ok st hinv
  · right
    show gha_job_id stage.name ∈ keysOf (processSeq ctx stage st).jobs
    rw [hkeys]
    exact List.mem_append_right _ (by simp)
  · intro x hx
    simp [processSeq] at hx

theorem processSubs_spec (ctx : Ctx) (upstream : Option Txt) :
    ∀ (subs : List StageRec) (st : LoopSt),
      jobsOk st.jobs = true →
      (∀ u, upstream = some u → u ∈ keysOf st.jobs) →
      (∀ sub ∈ subs, ¬ gha_job_id sub.name ∈ keysOf st.jobs) →
      (subs.map (fun sub => gha_job_id sub.name)).Nodup →
      jobsOk (subs.foldl (fun acc sub => processSub ctx upstream sub acc) st).jobs = true ∧
      keysOf (subs.foldl (fun acc sub => processSub ctx upstream sub acc) st).jobs =
        keysOf st.jobs ++ subs.map (fun sub => gha_job_id sub.name) := by
  intro subs
  induction subs with
  | nil => intro st hok hup hfresh hnd; exact ⟨hok, by simp⟩
  | cons sub rest ih =>
    intro st hok hup hfresh hnd
    simp only [List.foldl_cons, List.map_cons]
    have hfr : ¬ gha_job_id sub.name ∈ keysOf st.jobs := hfresh sub (by simp)
    have hjobs1 : (processSub ctx upstream sub st).jobs =
        st.jobs ++ [(gha_job_id sub.name, stageJobBase ctx sub (parNeeds upstream))] :=
      dictUpd_fresh st.jobs _ _ hfr
    have hkeys1 : keysOf (processSub ctx upstream sub st).jobs =
        keysOf st.jobs ++ [gha_job_id sub.name] := by
      rw [hjobs1]
      simp [keysOf]
    have hok1 : jobsOk (processSub ctx upstream sub st).jobs = true := by
      rw [hjobs1]
      unfold jobsOk
      rw [jobsOkAux_append, Bool.and_eq_true]
      refine ⟨hok, ?_⟩
      rw [List.nil_append]
      show needsOk (keysOf st.jobs) (parNeeds upstream) = true
      cases hu : upstream with
      | none => simp [parNeeds, needsOk, Needs.list]
      | some u =>
        simp only [parNeeds, needsOk, Needs.list, List.all_eq_true, decide_eq_true_eq]
        intro x hx
        rw [List.mem_singleton] at hx
        subst hx
        exact hup _ hu
    obtain ⟨hnotin, hndrest⟩ := List.nodup_cons.mp hnd
    have hup1 : ∀ u, upstream = some u →
        u ∈ keysOf (processSub ctx upstream sub st).jobs := by
      intro u hu
      rw [hkeys1]
      exact List.mem_append_left _ (hup u hu)
    have hfresh1 : ∀ s ∈ rest,
        ¬ gha_job_id s.name ∈ keysOf (processSub ctx upstream sub st).jobs := by
      intro s hs
      rw [hkeys1]
      intro hmem
      rcases List.mem_append.mp hmem with hm | hm
      · exact hfresh s (List.mem_cons_of_mem _ hs) hm
      · rw [List.mem_singleton] at hm
        apply hnotin
        have hsm : gha_job_id s.name ∈ List.map (fun sb => gha_job_id sb.name) rest :=
          List.mem_map_of_mem _ hs
        rw [hm] at hsm
        exact hsm
    obtain ⟨sok, skeys⟩ := ih (processSub ctx upstream sub st) hok1 hup1 hfresh1 hndrest
    refine ⟨sok, ?_⟩
    rw [skeys, hkeys1]
    simp

theorem processStages_spec (ctx : Ctx) :
    ∀ (stages : List StageRec) (st : LoopSt),
      LoopInv st →
      (stages.flatMap stageIds).Nodup →
      (∀ x ∈ stages.flatMap stageIds, ¬ x ∈ keysOf st.jobs) →
      LoopInv (processStages ctx stages st) ∧
      keysOf (processStages ctx stages st).jobs =
        keysOf st.jobs ++ stages.flatMap stageIds := by
  intro stages
  induction stages with
  | nil =>
    intro st hinv hnd hfresh
    exact ⟨hinv, by simp [processStages]⟩
  | cons stage rest ih =>
    intro st hinv hnd hfresh
    simp only [List.flatMap_cons] at hnd hfresh ⊢
    by_cases hpar : (extract_parallel stage.content).isEmpty = true
    · have hids : stageIds stage = [gha_job_id stage.name] := by
        simp [stageIds, hpar]
      rw [hids] at hnd hfresh ⊢
      have hstep : processStages ctx (stage :: rest) st =
          processStages ctx rest (processSeq ctx stage st) := by
        simp [processStages, hpar]
      rw [hstep]
      have hfr : ¬ gha_job_id stage.name ∈ keysOf st.jobs := by
        apply hfresh
        simp
      obtain ⟨hinv1, hkeys1⟩ := processSeq_spec ctx stage st hinv hfr
      have hdisj := (List.nodup_append.mp hnd).2.2
      have hnd1 : (rest.flatMap stageIds).Nodup := (List.nodup_append.mp hnd).2.1
      have hfresh1 : ∀ x ∈ rest.flatMap stageIds,
          ¬ x ∈ keysOf (processSeq ctx stage st).jobs := by
        intro x hx
        rw [hkeys1]
        intro hmem
        rcases List.mem_append.mp hmem with hm | hm
        · exact hfresh x (List.mem_append_right _ hx) hm
        · rw [List.mem_singleton] at hm
          subst hm
          exact hdisj (by simp) hx
      obtain ⟨hinv2, hkeys2⟩ := ih (processSeq ctx stage st) hinv1 hnd1 hfresh1
      refine ⟨hinv2, ?_⟩
      rw [hkeys2, hkeys1]
      simp
    · have hids : stageIds stage =
          (extract_parallel stage.content).map (fun sub => gha_job_id sub.name) := by
        simp [stageIds, hpar]
      rw [hids] at hnd hfresh ⊢
      have hstep : processStages ctx (stage :: rest) st =
          processStages ctx rest (processPar ctx (extract_parallel stage.content) st) := by
        simp [processStages, hpar]
      rw [hstep]
      obtain ⟨hok, hprev, hlast⟩ := hinv
      have hup : ∀ u,
          (if !st.prevJobId.isEmpty then some st.prevJobId else st.lastJobIds.getLast?) =
            some u → u ∈ keysOf st.jobs := by
        intro u hu
        split_ifs at hu with hp
        · cases hu
          rcases hprev with h0 | h0
          · rw [h0] at hp
            simp at hp
          · exact h0
        · exact hlast u (mem_of_getLastQ _ u hu)
      have hfreshSubs : ∀ sub ∈ extract_parallel stage.content,
          ¬ gha_job_id sub.name ∈ keysOf st.jobs := by
        intro sub hs
        apply hfresh
        exact List.mem_append_left _ (List.mem_map_of_mem _ hs)
      have hndSubs := (List.nodup_append.mp hnd).1
      obtain ⟨sok, skeys⟩ := processSubs_spec ctx
        (if !st.prevJobId.isEmpty then some st.prevJobId else st.lastJobIds.getLast?)
        (extract_parallel stage.content) st hok hup hfreshSubs hndSubs
      have hparjobs : (processPar ctx (extract_parallel stage.content) st).jobs =
          ((extract_parallel stage.content).foldl
            (fun acc sub => processSub ctx
              (if !st.prevJobId.isEmpty then some st.prevJobId else st.lastJobIds.getLast?)
              sub acc) st).jobs := rfl
      have hinv1 : LoopInv (processPar ctx (extract_parallel stage.content) st) := by
        refine ⟨?_, Or.inl rfl, ?_⟩
        · rw [show jobsOk (processPar ctx (extract_parallel stage.content) st).jobs =
              jobsOk ((extract_parallel stage.content).foldl
                (fun acc sub => processSub ctx
                  (if !st.prevJobId.isEmpty then some st.prevJobId
                   else st.lastJobIds.getLast?) sub acc) st).jobs from rfl]
          exact sok
        · intro x hx
          have hx' : x ∈ (extract_parallel stage.content).map
              (fun sub => gha_job_id sub.name) := hx
          rw [show keysOf (processPar ctx (extract_parallel stage.content) st).jobs =
              keysOf ((extract_parallel stage.content).foldl
                (fun acc sub => processSub ctx
                  (if !st.prevJobId.isEmpty then some st.prevJobId
                   else st.lastJobIds.getLast?) sub acc) st).jobs from rfl, skeys]
          exact List.mem_append_right _ hx'
      have hkeys1 : keysOf (processPar ctx (extract_parallel stage.content) st).jobs =
          keysOf st.jobs ++
            (extract_parallel stage.content).map (fun sub => gha_job_id sub.name) := by
        rw [hparjobs]
        exact skeys
      have hdisj := (List.nodup_append.mp hnd).2.2
      have hnd1 : (rest.flatMap stageIds).Nodup := (List.nodup_append.mp hnd).2.1
      have hfresh1 : ∀ x ∈ rest.flatMap stageIds,
          ¬ x ∈ keysOf (processPar ctx (extract_parallel stage.content) st).jobs := by
        intro x hx
        rw [hkeys1]
        intro hmem
        rcases List.mem_append.mp hmem with hm | hm
        · exact hfresh x (List.mem_append_right _ hx) hm
        · exact hdisj hm hx
      obtain ⟨hinv2, hkeys2⟩ := ih _ hinv1 hnd1 hfresh1
      refine ⟨hinv2, ?_⟩
      rw [hkeys2, hkeys1]
      simp

theorem addPipelinePost_jobsOk (ctx : Ctx) (post : List (Txt × PostData))
    (jobs : List (Txt × JobDef)) (hok : jobsOk jobs = true)
    (hpp : ¬ (lc "pipeline-post") ∈ keysOf jobs) :
    jobsOk (addPipelinePost ctx post jobs) = true := by
  simp only [addPipelinePost]
  split_ifs with h1 h2
  · exact hok
  · rw [dictUpd_fresh _ _ _ hpp]
    unfold jobsOk
    rw [jobsOkAux_append, Bool.and_eq_true]
    refine ⟨hok, ?_⟩
    rw [List.nil_append]
    simp only [needsOk, Needs.list, List.all_eq_true, decide_eq_true_eq]
    intro x hx
    exact List.mem_of_mem_filter hx
  · exact hok

theorem convertCore_jobs (pb sb : Txt) :
    (convertCore pb sb).1.jobs =
      addPipelinePost (ctxOf pb) (extract_pipeline_post pb)
        (updateJobsAux (loopStOf pb sb).jobs
          (save_enhanced_composite_actions (loopStOf pb sb).stagesInfo)) := rfl

/-- Claim C1 (counterexample): the two stages `A B` and `A.B` both slugify to
the job id `a-b`; the second overwrites the first (keeping its position) and
its dependency entry names the job's own id — not a job emitted strictly
earlier in the jobs mapping.  So the claim fails when stage names collide
after slugification. -/
theorem C1_counterexample :
    exceptOk (convert (lc "pipeline \x7b stages \x7b stage(\x22A B\x22) \x7b \x7d stage(\x22A.B\x22) \x7b \x7d \x7d \x7d")) = true ∧
    jobsOk (jobsOfResult (convert
      (lc "pipeline \x7b stages \x7b stage(\x22A B\x22) \x7b \x7d stage(\x22A.B\x22) \x7b \x7d \x7d \x7d"))) = false := by
  decide

/-- Claim C1 (amended): for every generated workflow whose stages map to
pairwise distinct job ids, none of which is the reserved id
`pipeline-post`, every entry in every job's dependency list names a job id
that was emitted strictly earlier into the jobs mapping (no forward
references), including the synthetic pipeline-post job, whose dependency
list is the list of all earlier job ids. -/
theorem C1_needs_no_forward_refs (textIn : Txt) (wf : GhaWorkflow)
    (acts : List ActionInfo)
    (hok : convert textIn = Except.ok (wf, acts))
    (hnd : (stageJobIds textIn).Nodup)
    (hpp : ¬ lc "pipeline-post" ∈ stageJobIds textIn) :
    jobsOk wf.jobs = true := by
  simp only [convert] at hok
  split at hok
  · simp at hok
  rename_i ps pe hp
  split at hok
  · simp at hok
  rename_i ss se hs
  simp only [Except.ok.injEq] at hok
  have hwf : (convertCore (slice (strip_comments textIn) ps pe)
      (slice (slice (strip_comments textIn) ps pe) ss se)).1 = wf := by
    rw [hok]
  have hsl : stageJobIds textIn =
      (split_stages (slice (slice (strip_comments textIn) ps pe) ss se)).flatMap
        stageIds := by
    simp only [stageJobIds, stagesListOf, hp, hs]
  rw [hsl] at hnd hpp
  rw [← hwf, convertCore_jobs]
  have hinit : LoopInv ⟨[], [], [], []⟩ :=
    ⟨rfl, Or.inl rfl, by intro x hx; simp at hx⟩
  obtain ⟨hinv, hkeys⟩ := processStages_spec
    (ctxOf (slice (strip_comments textIn) ps pe))
    (split_stages (slice (slice (strip_comments textIn) ps pe) ss se))
    ⟨[], [], [], []⟩ hinit hnd (by intro x hx; simp [keysOf])
  apply addPipelinePost_jobsOk
  · rw [jobsOk, updateJobsAux_jobsOkAux]
    exact hinv.1
  · rw [updateJobsAux_keys]
    rw [show (loopStOf (slice (strip_comments textIn) ps pe)
        (slice (slice (strip_comments textIn) ps pe) ss se)).jobs =
      (processStages (ctxOf (slice (strip_comments textIn) ps pe))
        (split_stages (slice (slice (strip_comments textIn) ps pe) ss se))
        ⟨[], [], [], []⟩).jobs from rfl]
    rw [hkeys]
    simpa [keysOf] using hpp

/-- Witness for C1 (amended) at a concrete two-stage pipeline. -/
theorem C1_needs_no_forward_refs_witness :
    jobsOk (jobsOfResult (convert
      (lc "pipeline \x7b stages \x7b stage(\x22Build\x22) \x7b \x7d stage(\x22Deploy\x22) \x7b \x7d \x7d \x7d"))) = true := by
  cases hok : convert
      (lc "pipeline \x7b stages \x7b stage(\x22Build\x22) \x7b \x7d stage(\x22Deploy\x22) \x7b \x7d \x7d \x7d") with
  | error e =>
    have hcmp : exceptOk (convert
        (lc "pipeline \x7b stages \x7b stage(\x22Build\x22) \x7b \x7d stage(\x22Deploy\x22) \x7b \x7d \x7d \x7d")) = true := by
      decide
    rw [hok] at hcmp
    simp [exceptOk] at hcmp
  | ok p =>
    obtain ⟨wf, acts⟩ := p
    show jobsOk wf.jobs = true
    exact C1_needs_no_forward_refs _ wf acts hok (by decide) (by decide)

/-! ## Scenario B: two sequential stages (claim C8) -/

theorem updateJobsAux_lookup_needsList :
    ∀ (l : List (Txt × JobDef)) (ais : List ActionInfo) (k : Txt),
      (aLookup k (updateJobsAux l ais)).map (fun jd => jd.needs.list) =
        (aLookup k l).map (fun jd => jd.needs.list) := by
  intro l
  induction l with
  | nil => intro ais k; cases ais <;> rfl
  | cons p rest ih =>
    intro ais k
    cases ais with
    | nil => rfl
    | cons ai ais2 =>
      obtain ⟨k1, j⟩ := p
      simp only [updateJobsAux, aLookup]
      by_cases hk : k1 = k
      · simp [hk, applyActInfo_needs]
      · rw [if_neg hk, if_neg hk]
        exact ih ais2 k

theorem addPipelinePost_lookup_ne (ctx : Ctx) (post : List (Txt × PostData))
    (jobs : List (Txt × JobDef)) (k : Txt) (hne : k ≠ lc "pipeline-post") :
    aLookup k (addPipelinePost ctx post jobs) = aLookup k jobs := by
  simp only [addPipelinePost]
  split_ifs with h1 h2
  · rfl
  · exact aLookup_dictUpd_ne jobs _ k _ hne
  · rfl

theorem stageJobBase_needs (c : Ctx) (s : StageRec) (n : Needs) :
    (stageJobBase c s n).needs = n := rfl

/-- Claim C8: for every input pipeline whose stage list is exactly the two
sequential stages "Build" then "Deploy" (neither containing a parallel
block), the generated job with id `deploy` exists and its dependency list is
exactly `["build"]`.  (The source stores the dependency as the scalar job id
`"build"`, which denotes the one-element dependency list, as `Needs.list`
makes precise.) -/
theorem C8_two_stage_deploy_needs (textIn : Txt) (wf : GhaWorkflow)
    (acts : List ActionInfo) (b1 b2 : Txt)
    (hok : convert textIn = Except.ok (wf, acts))
    (hstages : stagesListOf textIn = [⟨lc "Build", b1⟩, ⟨lc "Deploy", b2⟩])
    (hp1 : extract_parallel b1 = [])
    (hp2 : extract_parallel b2 = []) :
    (aLookup (lc "deploy") wf.jobs).map (fun jd => jd.needs.list) =
      some [lc "build"] := by
  simp only [convert] at hok
  split at hok
  · simp at hok
  rename_i ps pe hp
  split at hok
  · simp at hok
  rename_i ss se hs
  simp only [Except.ok.injEq] at hok
  have hwf : (convertCore (slice (strip_comments textIn) ps pe)
      (slice (slice (strip_comments textIn) ps pe) ss se)).1 = wf := by
    rw [hok]
  have hsl2 : split_stages (slice (slice (strip_comments textIn) ps pe) ss se) =
      [⟨lc "Build", b1⟩, ⟨lc "Deploy", b2⟩] := by
    simpa only [stagesListOf, hp, hs] using hstages
  rw [← hwf, convertCore_jobs]
  rw [addPipelinePost_lookup_ne _ _ _ _ (by decide)]
  rw [updateJobsAux_lookup_needsList]
  show (aLookup (lc "deploy")
      (processStages (ctxOf (slice (strip_comments textIn) ps pe))
        (split_stages (slice (slice (strip_comments textIn) ps pe) ss se))
        ⟨[], [], [], []⟩).jobs).map (fun jd => jd.needs.list) = some [lc "build"]
  rw [hsl2]
  have hstep1 : processStages (ctxOf (slice (strip_comments textIn) ps pe))
      [⟨lc "Build", b1⟩, ⟨lc "Deploy", b2⟩] ⟨[], [], [], []⟩ =
      processStages (ctxOf (slice (strip_comments textIn) ps pe))
        [⟨lc "Deploy", b2⟩]
        (processSeq (ctxOf (slice (strip_comments textIn) ps pe))
          ⟨lc "Build", b1⟩ ⟨[], [], [], []⟩) := by
    simp [processStages, hp1]
  have hstep2 : ∀ st : LoopSt,
      processStages (ctxOf (slice (strip_comments textIn) ps pe))
          [⟨lc "Deploy", b2⟩] st =
        processSeq (ctxOf (slice (strip_comments textIn) ps pe))
          ⟨lc "Deploy", b2⟩ st := by
    intro st
    simp [processStages, hp2]
  rw [hstep1, hstep2]
  simp only [processSeq]
  rw [show gha_job_id (lc "Deploy") = lc "deploy" from by decide,
      show gha_job_id (lc "Build") = lc "build" from by decide]
  rw [aLookup_dictUpd_self]
  simp only [Option.map_some', stageJobBase_needs, seqNeeds]
  rw [if_neg (by decide), if_pos (by decide)]
  rfl

/-- Witness for C8 at a concrete two-stage pipeline text. -/
theorem C8_two_stage_deploy_needs_witness :
    (aLookup (lc "deploy") (jobsOfResult (convert
      (lc "pipeline \x7b stages \x7b stage(\x22Build\x22) \x7b \x7d stage(\x22Deploy\x22) \x7b \x7d \x7d \x7d")))).map
        (fun jd => jd.needs.list) = some [lc "build"] := by
  cases hok : convert
      (lc "pipeline \x7b stages \x7b stage(\x22Build\x22) \x7b \x7d stage(\x22Deploy\x22) \x7b \x7d \x7d \x7d") with
  | error e =>
    have hcmp : exceptOk (convert
        (lc "pipeline \x7b stages \x7b stage(\x22Build\x22) \x7b \x7d stage(\x22Deploy\x22) \x7b \x7d \x7d \x7d")) = true := by
      decide
    rw [hok] at hcmp
    simp [exceptOk] at hcmp
  | ok p =>
    obtain ⟨wf, acts⟩ := p
    show (aLookup (lc "deploy") wf.jobs).map (fun jd => jd.needs.list) = some [lc "build"]
    exact C8_two_stage_deploy_needs _ wf acts (lc " ") (lc " ") hok (by decide)
      (by decide) (by decide)

/-! ## Comment stripping inside quoted strings (claim C10) -/

theorem stripBlockCommentsF_id :
    ∀ (fuel : Nat) (s : Txt), containsSub s (lc "/*") = false →
      stripBlockCommentsF fuel s = s := by
  intro fuel
  induction fuel with
  | zero => intro s h; rfl
  | succ f ih =>
    intro s h
    cases s with
    | nil => rfl
    | cons c rest =>
      simp only [containsSub, Bool.or_eq_false_iff] at h
      obtain ⟨h1, h2⟩ := h
      simp only [stripBlockCommentsF]
      rw [if_neg (by simp [h1])]
      rw [ih rest h2]

theorem stripLineCommentsF_nil (fuel : Nat) : stripLineCommentsF fuel [] = [] := by
  cases fuel <;> rfl

theorem stripLineCommentsF_cut :
    ∀ (a : Txt) (fuel : Nat) (b : Txt), a.length < fuel →
      (∀ c ∈ a, c ≠ '/' ∧ c ≠ '\n') → (∀ c ∈ b, c ≠ '\n') →
      stripLineCommentsF fuel (a ++ lc "//" ++ b) = a := by
  intro a
  induction a with
  | nil =>
    intro fuel b hf ha hb
    cases fuel with
    | zero => omega
    | succ f =>
      show stripLineCommentsF (f + 1) ('/' :: '/' :: b) = []
      simp only [stripLineCommentsF]
      rw [if_pos ?hp]
      case hp =>
        rw [show (lc "//") = ['/', '/'] from rfl]
        simp [List.isPrefixOf]
      have hdrop : (('/' :: '/' :: b).dropWhile (fun ch => ch ≠ '\n')) = [] := by
        rw [List.dropWhile_eq_nil_iff]
        intro ch hch
        simp only [List.mem_cons] at hch
        rcases hch with h | h | h
        · subst h; decide
        · subst h; decide
        · simpa using hb ch h
      rw [hdrop, stripLineCommentsF_nil]
  | cons c a' ih =>
    intro fuel b hf ha hb
    cases fuel with
    | zero => omega
    | succ f =>
      have hc := ha c (by simp)
      have hf' : a'.length < f := by
        simp only [List.length_cons] at hf
        omega
      show stripLineCommentsF (f + 1) (c :: (a' ++ lc "//" ++ b)) = c :: a'
      simp only [stripLineCommentsF]
      rw [if_neg ?hp]
      case hp =>
        rw [show (lc "//") = ['/', '/'] from rfl]
        simp only [List.isPrefixOf, Bool.and_eq_true, beq_iff_eq]
        intro hcontra
        exact hc.1 hcontra.1.symm
      exact congrArg (List.cons c)
        (ih f b hf' (fun x hx => ha x (by simp [hx])) hb)

theorem strip_comments_cut (a b : Txt)
    (ha : ∀ c ∈ a, c ≠ '/' ∧ c ≠ '\n')
    (hb : ∀ c ∈ b, c ≠ '\n')
    (hstar : containsSub (a ++ lc "//" ++ b) (lc "/*") = false) :
    strip_comments (a ++ lc "//" ++ b) = a := by
  simp only [strip_comments]
  rw [stripBlockCommentsF_id _ _ hstar]
  exact stripLineCommentsF_cut a _ b (by simp; omega) ha hb

/-! ### Collecting every text of a conversion result -/

def optTxt (o : Option Txt) : List Txt :=
  match o with
  | some t => [t]
  | none => []

def pairTxts (l : List (Txt × Txt)) : List Txt := l.map Prod.fst ++ l.map Prod.snd

def stepTxts (s : Step) : List Txt :=
  optTxt s.name ++ optTxt s.uses ++ optTxt s.run ++ optTxt s.shell ++ optTxt s.ifCond
    ++ pairTxts s.withArgs ++ pairTxts s.env

def containerTxts : Option Container → List Txt
  | some c => c.image :: optTxt c.options
  | none => []

def jobTxts (j : JobDef) : List Txt :=
  [j.runsOn] ++ containerTxts j.container ++ pairTxts j.env ++ optTxt j.ifCond
    ++ j.needs.list ++ optTxt j.environment ++ optTxt j.displayName
    ++ j.steps.flatMap stepTxts

def pvalTxts : PVal → List Txt
  | PVal.s v => [v]
  | PVal.b _ => []

def wfInputTxts (p : Txt × WfInput) : List Txt :=
  [p.1, p.2.description, p.2.wtype] ++ pvalTxts p.2.dflt ++
    (match p.2.options with
     | some os => os
     | none => [])

def workflowTxts (wf : GhaWorkflow) : List Txt :=
  [wf.name] ++ wf.pushBranches
    ++ (match wf.dispatchInputs with
        | some is2 => is2.flatMap wfInputTxts
        | none => [])
    ++ pairTxts wf.env
    ++ keysOf wf.jobs
    ++ (wf.jobs.map Prod.snd).flatMap jobTxts

def actionInputTxts (p : Txt × ActionInput) : List Txt :=
  [p.1, p.2.description, p.2.dflt]

def actionDefTxts (a : ActionDef) : List Txt :=
  [a.name, a.description] ++ a.inputs.flatMap actionInputTxts
    ++ a.steps.flatMap stepTxts

def actionInfoTxts (ai : ActionInfo) : List Txt :=
  [ai.name, ai.path, ai.approvalEnvironment] ++ pairTxts ai.env ++ ai.credentials
    ++ actionDefTxts ai.doc

/-- Every text occurring anywhere in a conversion result (workflow document
plus all per-stage action metadata and action documents). -/
def resultTxts : Except Txt (GhaWorkflow × List ActionInfo) → List Txt
  | Except.ok p => workflowTxts p.1 ++ p.2.flatMap actionInfoTxts
  | Except.error e => [e]

/-- Claim C10: the comment stripper removes everything from a `//` to end of
line even when the `//` lies inside a quoted string (first conjunct: for any
line prefix without `/` and any line remainder, everything from the `//` on
is removed, quotes notwithstanding); consequently, for the concrete valid
pipeline whose checkout url is `"https://github.com/owner/repo.git"`, the
conversion succeeds but no text of the generated workflow or of the
generated action output contains the url part after the `//`
(`github.com/owner`). -/
theorem C10_comment_strip_in_strings :
    (∀ a b : Txt, (∀ c ∈ a, c ≠ '/' ∧ c ≠ '\n') → (∀ c ∈ b, c ≠ '\n') →
      containsSub (a ++ lc "//" ++ b) (lc "/*") = false →
      strip_comments (a ++ lc "//" ++ b) = a) ∧
    containsSub
      (lc "pipeline \x7b stages \x7b stage(\x22Build\x22) \x7b steps \x7b git url: \x22https://github.com/owner/repo.git\x22\n \x7d \x7d \x7d \x7d")
      (lc "https://github.com/owner/repo.git") = true ∧
    exceptOk (convert
      (lc "pipeline \x7b stages \x7b stage(\x22Build\x22) \x7b steps \x7b git url: \x22https://github.com/owner/repo.git\x22\n \x7d \x7d \x7d \x7d")) = true ∧
    (resultTxts (convert
      (lc "pipeline \x7b stages \x7b stage(\x22Build\x22) \x7b steps \x7b git url: \x22https://github.com/owner/repo.git\x22\n \x7d \x7d \x7d \x7d"))).all
      (fun s => !containsSub s (lc "github.com/owner")) = true := by
  refine ⟨strip_comments_cut, by decide, by decide, by decide⟩

/-- Witness for C10: the `//` here lies inside a quoted string value, and
everything from it to the end of the line is removed anyway. -/
theorem C10_comment_strip_in_strings_witness :
    strip_comments (lc "url: \x22https:" ++ lc "//" ++ lc "github\x22") =
      lc "url: \x22https:" :=
  C10_comment_strip_in_strings.1 (lc "url: \x22https:") (lc "github\x22")
    (by decide) (by decide) (by decide)

end JGHA
